import Mathlib

set_option maxRecDepth 40000

/-!
Shallow embedding of `shamir/shamir.go` from the `shamir-cli` repository
(Shamir secret sharing over GF(2^8) with reduction polynomial 0x1B),
together with proofs about its specification claims.

Go bytes are modelled as `Nat` values below 256; byte slices as `List Nat`;
Go `int` as `Int`; fallible functions as `Except String`.  The source of
randomness consumed by `Split` (one fresh byte per non-constant polynomial
coefficient) is modelled as an explicit oracle argument
`rnd : Nat → Nat → Nat` giving the random byte for coefficient `i` of the
polynomial of byte position `byteIndex`.
-/

namespace Shamir

/-- Share represents one part of the secret (`type Share struct` in the source).
The Go zero value of the structure is `{ id := 0, value := [] }`. -/
structure Share where
  id : Nat
  value : List Nat
  deriving DecidableEq, Repr, Inhabited

/-- One iteration's shift-and-reduce step on the multiplicand inside
`gfMulPrimitive`: `highBit := (a & 0x80) != 0; a <<= 1; if highBit { a ^= 0x1B }`
(byte shift truncates modulo 256; 0x1B = 27). -/
def xt (a : Nat) : Nat :=
  if a.testBit 7 then ((a * 2) % 256) ^^^ 27 else (a * 2) % 256

/-- The 8-round loop of `gfMulPrimitive`: `r` rounds remain, `a` is the running
multiplicand, `b` the running multiplier, `acc` the accumulated result.
Each round: `if (b & 1) == 1 { result ^= a }`, then shift-reduce `a`, then `b >>= 1`. -/
def gfMulAux : Nat → Nat → Nat → Nat → Nat
  | 0, _, _, acc => acc
  | r + 1, a, b, acc =>
      gfMulAux r (xt a) (b / 2) (if b % 2 = 1 then acc ^^^ a else acc)

/-- gfMulPrimitive performs multiplication in GF(2^8) without tables
(bit-serial shift-and-reduce with the irreducible polynomial x^8+x^4+x^3+x+1). -/
def gfMulPrimitive (a b : Nat) : Nat :=
  if a = 0 ∨ b = 0 then 0 else gfMulAux 8 a b 0

/-- gfInvPrimitive computes the multiplicative inverse in GF(2^8) by brute
force: it tries `i = 1, …, 255` and returns the first `i` with
`gfMulPrimitive a i == 1`, returning 0 for `a = 0` or when no inverse is found. -/
def gfInvPrimitive (a : Nat) : Nat :=
  if a = 0 then 0
  else
    match (List.range' 1 255).find? (fun i => gfMulPrimitive a i == 1) with
    | some i => i
    | none => 0

/-- gfMul: the source multiplies through the table `gfMulTable`, which `initGF`
fills with `gfMulPrimitive a b` for every pair, so the table lookup is
extensionally `gfMulPrimitive`. -/
def gfMul (a b : Nat) : Nat :=
  gfMulPrimitive a b

/-- gfInv: the source reads the table `gfInvTable`, which `initGF` fills with
`gfInvPrimitive i` (and 0 at index 0), so the lookup is extensionally
`gfInvPrimitive`. -/
def gfInv (a : Nat) : Nat :=
  gfInvPrimitive a

/-- gfAdd performs addition in GF(2^8) (XOR). -/
def gfAdd (a b : Nat) : Nat :=
  a ^^^ b

/-- gfSub performs subtraction in GF(2^8) (XOR). -/
def gfSub (a b : Nat) : Nat :=
  a ^^^ b

/-- The loop of `evaluatePolynomial` over the coefficients after the first:
`xPow = gfMul(xPow, x); result = gfAdd(result, gfMul(coeffs[i], xPow))`. -/
def evalPolyAux (x : Nat) : List Nat → Nat → Nat → Nat
  | [], result, _ => result
  | c :: rest, result, xPow =>
      evalPolyAux x rest (gfAdd result (gfMul c (gfMul xPow x))) (gfMul xPow x)

/-- evaluatePolynomial computes the value of the polynomial with coefficient
vector `coeffs` (constant term first) at the point `x`. -/
def evaluatePolynomial (coeffs : List Nat) (x : Nat) : Nat :=
  match coeffs with
  | [] => 0
  | c :: rest => evalPolyAux x rest c 1

/-- Split divides a secret into n parts, k of which are needed for recovery.
`rnd byteIndex i` models the byte drawn from `crypto/rand` for coefficient `i`
of the polynomial of position `byteIndex`.  The share slice starts as
`make([]Share, n)` (all zero values); for each byte position a fresh
polynomial is built and evaluated at the points 1..n; at position 0 the
share is replaced by `Share{ID: i+1, Value: make([]byte, len(secret))}`
before its value byte is written. -/
def Split (secret : List Nat) (n k : Int) (rnd : Nat → Nat → Nat) :
    Except String (List Share) :=
  if k < 2 then Except.error "k должно быть не менее 2"
  else if n < k then Except.error "n должно быть не менее k"
  else if n > 255 then Except.error "n не может быть больше 255"
  else Except.ok <|
    (List.range secret.length).foldl (fun shares byteIndex =>
      let coeffs := secret.getD byteIndex 0 ::
        (List.range (k.toNat - 1)).map fun j => rnd byteIndex (j + 1)
      (List.range n.toNat).foldl (fun shares i =>
        let shareID := i + 1
        let shareValue := evaluatePolynomial coeffs shareID
        let cur := if byteIndex = 0 then
            { id := shareID, value := List.replicate secret.length 0 }
          else shares.getD i { id := 0, value := [] }
        shares.set i { cur with value := cur.value.set byteIndex shareValue })
        shares)
      (List.replicate n.toNat { id := 0, value := [] })

/-- The numerator loop of `lagrangeInterpolation` for index `i`:
the product of `xs[j]` over `j ≠ i`, ascending `j`. -/
def lagrangeNumerator (xs : List Nat) (i : Nat) : Nat :=
  ((List.range xs.length).filter (fun j => j ≠ i)).foldl
    (fun acc j => gfMul acc (xs.getD j 0)) 1

/-- The denominator loop of `lagrangeInterpolation` for index `i`:
the product of `gfAdd(xs[i], xs[j])` over `j ≠ i`, ascending `j`. -/
def lagrangeDenominator (xs : List Nat) (i : Nat) : Nat :=
  ((List.range xs.length).filter (fun j => j ≠ i)).foldl
    (fun acc j => gfMul acc (gfAdd (xs.getD i 0) (xs.getD j 0))) 1

/-- lagrangeInterpolation recovers the constant term (the value at the point 0)
from the sample points `(xs[i], ys[i])`.  A term whose denominator is 0
(which happens exactly when some `xs[j] = xs[i]`, `j ≠ i`) is silently
skipped, mirroring the `if denominator != 0` guard of the source. -/
def lagrangeInterpolation (xs ys : List Nat) : Nat :=
  (List.range xs.length).foldl (fun result i =>
    let numerator := lagrangeNumerator xs i
    let denominator := lagrangeDenominator xs i
    if denominator ≠ 0 then
      gfAdd result (gfMul (ys.getD i 0) (gfMul numerator (gfInv denominator)))
    else result) 0

/-- Combine recovers the secret from the parts: it requires at least 2 shares
and equal value lengths, then interpolates each byte position at 0. -/
def Combine (shares : List Share) : Except String (List Nat) :=
  if shares.length < 2 then Except.error "необходимо минимум 2 части"
  else
    let secretLen := (shares.headD { id := 0, value := [] }).value.length
    if (shares.drop 1).any (fun s => s.value.length ≠ secretLen) then
      Except.error "все части должны иметь одинаковую длину"
    else
      Except.ok <| (List.range secretLen).map fun byteIndex =>
        lagrangeInterpolation (shares.map Share.id)
          (shares.map fun s => s.value.getD byteIndex 0)

/-- Lowercase hexadecimal digit, as produced by the `%x` format verb. -/
def hexDigitChar (n : Nat) : Char :=
  if n < 10 then Char.ofNat (48 + n) else Char.ofNat (87 + n)

/-- Two lowercase hex characters for one byte, as `%x` prints each byte. -/
def byteToHex (b : Nat) : List Char :=
  [hexDigitChar (b / 16), hexDigitChar (b % 16)]

/-- ShareToString renders a share as `fmt.Sprintf("%d:%x", share.ID, share.Value)`:
the decimal id, a colon, then two lowercase hex digits per value byte. -/
def ShareToString (share : Share) : String :=
  String.mk ((Nat.repr share.id).toList ++ ':' :: (share.value.map byteToHex).flatten)

/-- Outcome of `StringToShare`: a share, a returned error, or a runtime fault
(Go panic), which the source can raise by slicing `hexValue[i:i+2]` past the
end of the string. -/
inductive DecodeOutcome where
  | ok (s : Share)
  | error (msg : String)
  | fault
  deriving DecidableEq, Repr

/-- Model of `fmt.Sscanf(s, "%d:%s", &share.ID, &hexValue)` on whitespace-free
input: a non-empty run of decimal digits whose value fits in a byte
(`share.ID` has type `byte`, so values above 255 are a scan error), a literal
`:`, then a non-empty `%s` token running to the first whitespace. -/
def scanShareFormat (l : List Char) : Option (Nat × List Char) :=
  let digits := l.takeWhile Char.isDigit
  if digits.isEmpty then none
  else
    let idVal := digits.foldl (fun acc c => acc * 10 + (c.toNat - 48)) 0
    if idVal > 255 then none
    else
      match l.drop digits.length with
      | ':' :: restAfter =>
          let hexStr := restAfter.takeWhile (fun c => !c.isWhitespace)
          if hexStr.isEmpty then none else some (idVal, hexStr)
      | _ => none

/-- Hexadecimal digit test of the `%x` scan verb (both cases accepted). -/
def isHexDigitChar (c : Char) : Bool :=
  c.isDigit || ('a' ≤ c && c ≤ 'f') || ('A' ≤ c && c ≤ 'F')

/-- Value of one hexadecimal digit character. -/
def hexCharVal (c : Char) : Nat :=
  if c.isDigit then c.toNat - 48
  else if 'a' ≤ c && c ≤ 'f' then c.toNat - 87
  else c.toNat - 55

/-- The hex-decoding loop of `StringToShare`: `for i := 0; i < len(hexValue); i += 2`
slices `hexValue[i:i+2]`, which panics (`fault`) when only one character is
left, and scans the two characters with `%02x` — a scan error only when the
first character is not a hex digit (with one hex digit the scan succeeds with
`n = 1` and yields that single digit's value). -/
def parseHexPairs : List Char → DecodeOutcome
  | [] => DecodeOutcome.ok { id := 0, value := [] }
  | [_] => DecodeOutcome.fault
  | c1 :: c2 :: rest =>
      if isHexDigitChar c1 then
        let b := if isHexDigitChar c2 then hexCharVal c1 * 16 + hexCharVal c2
          else hexCharVal c1
        match parseHexPairs rest with
        | DecodeOutcome.ok s => DecodeOutcome.ok { id := 0, value := b :: s.value }
        | r => r
      else DecodeOutcome.error "неверный формат hex"

/-- StringToShare parses the textual form back into a share, or reports an
error (`неверный формат части` from the `Sscanf`, `неверный формат hex` from
the pair loop), or faults on the out-of-range slice. -/
def StringToShare (s : String) : DecodeOutcome :=
  match scanShareFormat s.toList with
  | none => DecodeOutcome.error "неверный формат части"
  | some (idVal, hexStr) =>
      match parseHexPairs hexStr with
      | DecodeOutcome.ok sh => DecodeOutcome.ok { id := idVal, value := sh.value }
      | r => r

end Shamir

/-!
GF(2^8) as a field.  The bit-serial multiplication `gfMulPrimitive` is shown
to be commutative, associative and distributive over XOR by expanding it as
an XOR-sum of shift-reduce iterates over the bits of its arguments.
-/

namespace Shamir

/-- XOR-sum of a list of naturals. -/
def xsum (l : List Nat) : Nat :=
  l.foldr (fun a b => a ^^^ b) 0

theorem xsum_nil : xsum [] = 0 := rfl

theorem xsum_cons (a : Nat) (l : List Nat) : xsum (a :: l) = a ^^^ xsum l := rfl

theorem xor_xor_xor (x y z w : Nat) :
    (x ^^^ y) ^^^ (z ^^^ w) = (x ^^^ z) ^^^ (y ^^^ w) := by
  rw [Nat.xor_assoc, Nat.xor_assoc, ← Nat.xor_assoc y z w, Nat.xor_comm y z,
    Nat.xor_assoc z y w]

theorem xsum_map_xor {α : Type} (l : List α) (f g : α → Nat) :
    xsum (l.map fun i => f i ^^^ g i) = xsum (l.map f) ^^^ xsum (l.map g) := by
  induction l with
  | nil => simp [xsum_nil]
  | cons a t ih => simp only [List.map_cons, xsum_cons, ih, xor_xor_xor]

theorem xsum_map_zero {α : Type} (l : List α) :
    xsum (l.map fun _ => (0 : Nat)) = 0 := by
  induction l with
  | nil => rfl
  | cons a t ih => rw [List.map_cons, xsum_cons, ih, Nat.xor_zero]

theorem xsum_swap {α β : Type} (l₁ : List α) (l₂ : List β) (f : α → β → Nat) :
    xsum (l₁.map fun i => xsum (l₂.map fun j => f i j)) =
      xsum (l₂.map fun j => xsum (l₁.map fun i => f i j)) := by
  induction l₁ with
  | nil =>
      rw [List.map_nil, xsum_nil]
      exact (xsum_map_zero l₂).symm
  | cons a t ih =>
      simp only [List.map_cons, xsum_cons, ih, ← xsum_map_xor]

theorem xsum_congr {α : Type} {l : List α} {f g : α → Nat}
    (h : ∀ x ∈ l, f x = g x) : xsum (l.map f) = xsum (l.map g) := by
  rw [List.map_congr_left h]

theorem xsum_lt (l : List Nat) (h : ∀ x ∈ l, x < 256) : xsum l < 256 := by
  induction l with
  | nil => simp [xsum_nil]
  | cons a t ih =>
      rw [xsum_cons]
      have h256 : (256 : Nat) = 2 ^ 8 := by norm_num
      rw [h256]
      exact Nat.xor_lt_two_pow (h256 ▸ h a (by simp))
        (h256 ▸ ih fun x hx => h x (by simp [hx]))

theorem xt_lt (a : Nat) : xt a < 256 := by
  unfold xt
  split
  · have h256 : (256 : Nat) = 2 ^ 8 := by norm_num
    rw [h256]
    exact Nat.xor_lt_two_pow (h256 ▸ Nat.mod_lt _ (by norm_num)) (by norm_num)
  · exact Nat.mod_lt _ (by norm_num)

theorem xt_zero : xt 0 = 0 := by decide

theorem mul_two_mod_xor (a b : Nat) :
    ((a ^^^ b) * 2) % 256 = ((a * 2) % 256) ^^^ ((b * 2) % 256) := by
  have h2 : ∀ x : Nat, x * 2 = x <<< 1 := by
    intro x
    rw [Nat.shiftLeft_eq]
  have h256 : (256 : Nat) = 2 ^ 8 := by norm_num
  apply Nat.eq_of_testBit_eq
  intro i
  rw [h2 (a ^^^ b), h2 a, h2 b, h256]
  simp only [Nat.testBit_mod_two_pow, Nat.testBit_shiftLeft, Nat.testBit_xor,
    Bool.and_xor_distrib_left]

theorem if_bool_xor (p q : Bool) (t : Nat) :
    (if (p ^^ q) = true then t else 0) =
      (if p = true then t else 0) ^^^ (if q = true then t else 0) := by
  cases p <;> cases q <;> simp

theorem xt_eq (a : Nat) :
    xt a = ((a * 2) % 256) ^^^ (if a.testBit 7 = true then 27 else 0) := by
  unfold xt
  cases a.testBit 7 <;> simp

theorem xt_xor (a b : Nat) : xt (a ^^^ b) = xt a ^^^ xt b := by
  rw [xt_eq, xt_eq, xt_eq, Nat.testBit_xor, mul_two_mod_xor, if_bool_xor,
    xor_xor_xor]

theorem xt_iter_zero (j : Nat) : xt^[j] 0 = 0 := by
  induction j with
  | zero => rfl
  | succ j ih => rw [Function.iterate_succ_apply, xt_zero, ih]

theorem xt_iter_xor (j a b : Nat) : xt^[j] (a ^^^ b) = xt^[j] a ^^^ xt^[j] b := by
  induction j generalizing a b with
  | zero => rfl
  | succ j ih => rw [Function.iterate_succ_apply, Function.iterate_succ_apply,
      Function.iterate_succ_apply, xt_xor, ih]

theorem xt_iter_lt (j : Nat) {a : Nat} (h : a < 256) : xt^[j] a < 256 := by
  induction j generalizing a with
  | zero => exact h
  | succ j ih => rw [Function.iterate_succ_apply]; exact ih (xt_lt a)

/-- The value accumulated by the multiplication loop, starting from a zero
accumulator. -/
def mulBits (r a b : Nat) : Nat :=
  gfMulAux r a b 0

theorem gfMulAux_acc (r : Nat) : ∀ a b acc, gfMulAux r a b acc = acc ^^^ mulBits r a b := by
  induction r with
  | zero => intro a b acc; simp [gfMulAux, mulBits, Nat.xor_zero]
  | succ r ih =>
      intro a b acc
      show gfMulAux r (xt a) (b / 2) _ = acc ^^^ gfMulAux (r+1) a b 0
      rw [ih (xt a) (b / 2), mulBits]
      show _ = acc ^^^ gfMulAux r (xt a) (b / 2) (if b % 2 = 1 then 0 ^^^ a else 0)
      rw [ih (xt a) (b / 2) (if b % 2 = 1 then 0 ^^^ a else 0), Nat.zero_xor]
      by_cases hb : b % 2 = 1 <;> simp [hb, mulBits, Nat.xor_assoc]

/-- XOR-sum expansion of the multiplication loop over the bits of `b`. -/
theorem mulBits_eq_xsum (r : Nat) : ∀ a b, mulBits r a b =
    xsum ((List.range r).map fun j => if b.testBit j then xt^[j] a else 0) := by
  induction r with
  | zero => intro a b; rfl
  | succ r ih =>
      intro a b
      have step : mulBits (r + 1) a b = (if b % 2 = 1 then a else 0) ^^^ mulBits r (xt a) (b / 2) := by
        show gfMulAux (r+1) a b 0 = _
        show gfMulAux r (xt a) (b / 2) (if b % 2 = 1 then 0 ^^^ a else 0) = _
        rw [gfMulAux_acc r (xt a) (b / 2), Nat.zero_xor]
      rw [step, ih (xt a) (b / 2), List.range_succ_eq_map, List.map_cons, xsum_cons,
        List.map_map]
      congr 1
      · rw [Function.iterate_zero_apply, Nat.testBit_zero]
        by_cases hb : b % 2 = 1 <;> simp [hb]
      · apply xsum_congr
        intro j hj
        show (if (b / 2).testBit j = true then xt^[j] (xt a) else 0) =
          (if b.testBit (j + 1) = true then xt^[j + 1] a else 0)
        rw [Nat.testBit_succ, Function.iterate_succ_apply]

/-- Multiplication as an XOR-sum over the 8 bits of the multiplier. -/
def mulSum (a b : Nat) : Nat :=
  xsum ((List.range 8).map fun j => if b.testBit j then xt^[j] a else 0)

theorem mulSum_zero_left (c : Nat) : mulSum 0 c = 0 := by
  unfold mulSum
  calc xsum ((List.range 8).map fun j => if c.testBit j then xt^[j] 0 else 0)
      = xsum ((List.range 8).map fun _ => (0 : Nat)) := by
        apply xsum_congr
        intro j _
        rw [xt_iter_zero]
        by_cases hc : c.testBit j <;> simp [hc]
    _ = 0 := xsum_map_zero _

theorem mulSum_zero_right (a : Nat) : mulSum a 0 = 0 := by
  unfold mulSum
  calc xsum ((List.range 8).map fun j => if (0 : Nat).testBit j then xt^[j] a else 0)
      = xsum ((List.range 8).map fun _ => (0 : Nat)) := by
        apply xsum_congr
        intro j _
        simp [Nat.zero_testBit]
    _ = 0 := xsum_map_zero _

theorem gfMulPrimitive_eq_mulSum (a b : Nat) : gfMulPrimitive a b = mulSum a b := by
  unfold gfMulPrimitive
  by_cases h : a = 0 ∨ b = 0
  · rw [if_pos h]
    rcases h with h | h
    · subst h
      exact (mulSum_zero_left b).symm
    · subst h
      exact (mulSum_zero_right a).symm
  · rw [if_neg h]
    exact mulBits_eq_xsum 8 a b

theorem mulSum_lt {a : Nat} (h : a < 256) (b : Nat) : mulSum a b < 256 := by
  apply xsum_lt
  intro x hx
  rcases List.mem_map.mp hx with ⟨j, _, rfl⟩
  by_cases hb : b.testBit j <;> simp [hb, xt_iter_lt j h]

theorem gfMulPrimitive_lt {a : Nat} (h : a < 256) (b : Nat) : gfMulPrimitive a b < 256 := by
  rw [gfMulPrimitive_eq_mulSum]; exact mulSum_lt h b

/-- Right distributivity of the bit-serial multiplication over XOR. -/
theorem mulSum_xor_right (a b c : Nat) :
    mulSum a (b ^^^ c) = mulSum a b ^^^ mulSum a c := by
  unfold mulSum
  rw [← xsum_map_xor]
  apply xsum_congr
  intro j _
  rw [Nat.testBit_xor, if_bool_xor]

/-- Left distributivity of the bit-serial multiplication over XOR. -/
theorem mulSum_xor_left (a b c : Nat) :
    mulSum (a ^^^ b) c = mulSum a c ^^^ mulSum b c := by
  unfold mulSum
  rw [← xsum_map_xor]
  apply xsum_congr
  intro j _
  rw [xt_iter_xor]
  by_cases hc : c.testBit j <;> simp [hc]

/-- Shift-reduce iterates of 1: `T m` represents the reduction of x^m. -/
def T (m : Nat) : Nat :=
  xt^[m] 1

theorem if_true_nat (x y : Nat) : (if true = true then x else y) = x := rfl

theorem if_false_nat (x y : Nat) : (if false = true then x else y) = y := rfl

theorem xsum_eq_zero {α : Type} {l : List α} {f : α → Nat}
    (h : ∀ x ∈ l, f x = 0) : xsum (l.map f) = 0 := by
  rw [xsum_congr h, xsum_map_zero]

theorem bits_decomp : ∀ a < 256,
    xsum ((List.range 8).map fun i => if a.testBit i then 2 ^ i else 0) = a := by
  decide

theorem pow_eq_T : ∀ i < 8, (2 : Nat) ^ i = T i := by
  decide

theorem T_lt (m : Nat) : T m < 256 :=
  xt_iter_lt m (by norm_num)

theorem xt_iter_xsum (j : Nat) (l : List Nat) :
    xt^[j] (xsum l) = xsum (l.map xt^[j]) := by
  induction l with
  | nil => rw [List.map_nil, xsum_nil, xt_iter_zero]
  | cons a t ih => rw [List.map_cons, xsum_cons, xsum_cons, xt_iter_xor, ih]

theorem xt_iter_if (j : Nat) (p : Bool) (x : Nat) :
    xt^[j] (if p then x else 0) = if p then xt^[j] x else 0 := by
  cases p
  · rw [if_false_nat, if_false_nat, xt_iter_zero]
  · rw [if_true_nat, if_true_nat]

theorem xsum_if_pull (p : Bool) (l : List Nat) :
    (if p then xsum l else 0) = xsum (l.map fun x => if p then x else 0) := by
  cases p
  · rw [if_false_nat]
    exact (xsum_eq_zero fun x _ => if_false_nat x 0).symm
  · rw [if_true_nat]
    have hfun : (fun x : Nat => if true = true then x else 0) = fun x => x := by
      funext x
      rw [if_true_nat]
    rw [hfun, List.map_id']

/-- Double XOR-sum form of the multiplication: over the bits of both factors. -/
theorem mulSum_double {a : Nat} (ha : a < 256) (b : Nat) :
    mulSum a b = xsum ((List.range 8).map fun j =>
      xsum ((List.range 8).map fun i =>
        if b.testBit j then if a.testBit i then T (j + i) else 0 else 0)) := by
  unfold mulSum
  apply xsum_congr
  intro j hj
  rcases hb : b.testBit j
  · rw [if_false_nat]
    exact (xsum_eq_zero fun i _ => by rw [if_false_nat]).symm
  · rw [if_true_nat]
    conv =>
      lhs
      rw [← bits_decomp a ha]
    rw [xt_iter_xsum, List.map_map]
    apply xsum_congr
    intro i hi
    have hi8 : i < 8 := List.mem_range.mp hi
    show xt^[j] (if a.testBit i then 2 ^ i else 0) =
      (if true = true then if a.testBit i then T (j + i) else 0 else 0)
    rw [if_true_nat, xt_iter_if, pow_eq_T i hi8]
    rcases hai : a.testBit i
    · rw [if_false_nat, if_false_nat]
    · rw [if_true_nat, if_true_nat]
      show xt^[j] (xt^[i] 1) = T (j + i)
      rw [← Function.iterate_add_apply]
      rfl

theorem if_bool_comm (p q : Bool) (t : Nat) :
    (if p then if q then t else 0 else 0) = (if q then if p then t else 0 else 0) := by
  cases p <;> cases q <;> simp

/-- Commutativity of the bit-serial multiplication on bytes. -/
theorem mulSum_comm {a b : Nat} (ha : a < 256) (hb : b < 256) :
    mulSum a b = mulSum b a := by
  rw [mulSum_double ha b, mulSum_double hb a, xsum_swap]
  apply xsum_congr
  intro i _
  apply xsum_congr
  intro j _
  rw [if_bool_comm]
  rcases hai : a.testBit i <;> rcases hbj : b.testBit j <;>
    simp [Nat.add_comm i j]

theorem mulSum_T_left (m c : Nat) : mulSum (T m) c =
    xsum ((List.range 8).map fun k => if c.testBit k then T (m + k) else 0) := by
  unfold mulSum
  apply xsum_congr
  intro k _
  rcases hck : c.testBit k
  · rw [if_false_nat, if_false_nat]
  · rw [if_true_nat, if_true_nat]
    show xt^[k] (xt^[m] 1) = T (m + k)
    rw [← Function.iterate_add_apply]
    show xt^[k + m] 1 = T (m + k)
    rw [Nat.add_comm k m]
    rfl

theorem mulSum_xsum_left (l : List Nat) (c : Nat) :
    mulSum (xsum l) c = xsum (l.map fun x => mulSum x c) := by
  induction l with
  | nil => rw [List.map_nil, xsum_nil, mulSum_zero_left]
  | cons a t ih => rw [List.map_cons, xsum_cons, xsum_cons, mulSum_xor_left, ih]

theorem mulSum_if_left (p : Bool) (x c : Nat) :
    mulSum (if p then x else 0) c = if p then mulSum x c else 0 := by
  cases p
  · rw [if_false_nat, if_false_nat, mulSum_zero_left]
  · rw [if_true_nat, if_true_nat]

/-- Canonical triple XOR-sum over the bits of three byte factors. -/
def canon3 (a b c : Nat) : Nat :=
  xsum ((List.range 8).map fun i =>
    xsum ((List.range 8).map fun j =>
      xsum ((List.range 8).map fun k =>
        if a.testBit i then if b.testBit j then if c.testBit k then
          T (i + j + k) else 0 else 0 else 0)))

theorem xsum_rotate {α β γ : Type} (l₁ : List α) (l₂ : List β) (l₃ : List γ)
    (f : α → β → γ → Nat) :
    xsum (l₁.map fun i => xsum (l₂.map fun j => xsum (l₃.map fun k => f i j k))) =
      xsum (l₃.map fun k => xsum (l₁.map fun i => xsum (l₂.map fun j => f i j k))) := by
  have step1 : ∀ i ∈ l₁,
      (fun i => xsum (l₂.map fun j => xsum (l₃.map fun k => f i j k))) i =
        (fun i => xsum (l₃.map fun k => xsum (l₂.map fun j => f i j k))) i := by
    intro i _
    exact xsum_swap l₂ l₃ (fun j k => f i j k)
  rw [xsum_congr step1]
  exact xsum_swap l₁ l₃ (fun i k => xsum (l₂.map fun j => f i j k))

theorem mulSum_mulSum_left {a b : Nat} (ha : a < 256) (c : Nat) :
    mulSum (mulSum a b) c = canon3 b a c := by
  rw [mulSum_double ha b, mulSum_xsum_left, List.map_map]
  unfold canon3
  apply xsum_congr
  intro j _
  show mulSum (xsum ((List.range 8).map fun i =>
    if b.testBit j then if a.testBit i then T (j + i) else 0 else 0)) c = _
  rw [mulSum_xsum_left, List.map_map]
  apply xsum_congr
  intro i _
  show mulSum (if b.testBit j then if a.testBit i then T (j + i) else 0 else 0) c = _
  rw [mulSum_if_left, mulSum_if_left, mulSum_T_left]
  rcases hbj : b.testBit j
  · rw [if_false_nat]
    exact (xsum_eq_zero fun k _ => by rw [if_false_nat]).symm
  · rw [if_true_nat]
    rcases hai : a.testBit i
    · rw [if_false_nat]
      exact (xsum_eq_zero fun k _ => by rw [if_true_nat, if_false_nat]).symm
    · rw [if_true_nat]
      apply xsum_congr
      intro k _
      rw [if_true_nat, if_true_nat]

/-- The multiplicative inverses in GF(2^8), index by element. -/
def invTable : List Nat := [0, 1, 141, 246, 203, 82, 123, 209, 232, 79, 41, 192, 176, 225, 229, 199, 116, 180, 170, 75, 153, 43, 96, 95, 88, 63, 253, 204, 255, 64, 238, 178, 58, 110, 90, 241, 85, 77, 168, 201, 193, 10, 152, 21, 48, 68, 162, 194, 44, 69, 146, 108, 243, 57, 102, 66, 242, 53, 32, 111, 119, 187, 89, 25, 29, 254, 55, 103, 45, 49, 245, 105, 167, 100, 171, 19, 84, 37, 233, 9, 237, 92, 5, 202, 76, 36, 135, 191, 24, 62, 34, 240, 81, 236, 97, 23, 22, 94, 175, 211, 73, 166, 54, 67, 244, 71, 145, 223, 51, 147, 33, 59, 121, 183, 151, 133, 16, 181, 186, 60, 182, 112, 208, 6, 161, 250, 129, 130, 131, 126, 127, 128, 150, 115, 190, 86, 155, 158, 149, 217, 247, 2, 185, 164, 222, 106, 50, 109, 216, 138, 132, 114, 42, 20, 159, 136, 249, 220, 137, 154, 251, 124, 46, 195, 143, 184, 101, 72, 38, 200, 18, 74, 206, 231, 210, 98, 12, 224, 31, 239, 17, 117, 120, 113, 165, 142, 118, 61, 189, 188, 134, 87, 11, 40, 47, 163, 218, 212, 228, 15, 169, 39, 83, 4, 27, 252, 172, 230, 122, 7, 174, 99, 197, 219, 226, 234, 148, 139, 196, 213, 157, 248, 144, 107, 177, 13, 214, 235, 198, 14, 207, 173, 8, 78, 215, 227, 93, 80, 30, 179, 91, 35, 56, 52, 104, 70, 3, 140, 221, 156, 125, 160, 205, 26, 65, 28]

theorem if3_reorder (p q r : Bool) {m n : Nat} (h : m = n) :
    (if p then if q then if r then T m else 0 else 0 else 0) =
      (if r then if p then if q then T n else 0 else 0 else 0) := by
  subst h
  cases p <;> cases q <;> cases r <;> rfl

theorem canon3_swap (a b c : Nat) : canon3 b a c = canon3 c b a := by
  unfold canon3
  have r1 := xsum_rotate (List.range 8) (List.range 8) (List.range 8)
    (fun p q r => if c.testBit p then if b.testBit q then if a.testBit r then
      T (p + q + r) else 0 else 0 else 0)
  rw [r1]
  have r2 := xsum_rotate (List.range 8) (List.range 8) (List.range 8)
    (fun r p q => if c.testBit p then if b.testBit q then if a.testBit r then
      T (p + q + r) else 0 else 0 else 0)
  rw [r2]
  apply xsum_congr
  intro x _
  apply xsum_congr
  intro y _
  apply xsum_congr
  intro z _
  exact if3_reorder (b.testBit x) (a.testBit y) (c.testBit z) (by omega)

/-- Associativity of the bit-serial multiplication on bytes. -/
theorem mulSum_assoc {a b c : Nat} (ha : a < 256) (hb : b < 256) :
    mulSum (mulSum a b) c = mulSum a (mulSum b c) := by
  rw [mulSum_mulSum_left ha c, mulSum_comm ha (mulSum_lt hb c),
    mulSum_mulSum_left hb a]
  exact canon3_swap a b c

theorem gfMul_one_right : ∀ a < 256, gfMulPrimitive a 1 = a := by
  decide

theorem gfMul_one_left : ∀ a < 256, gfMulPrimitive 1 a = a := by
  decide

theorem invTable_spec : ∀ a < 256, 0 < a →
    0 < invTable.getD a 0 ∧ invTable.getD a 0 < 256 ∧
      gfMulPrimitive a (invTable.getD a 0) = 1 := by
  decide

theorem find?_mem_of_exists {α : Type} (l : List α) (p : α → Bool)
    (h : ∃ x ∈ l, p x = true) : ∃ y, l.find? p = some y ∧ p y = true ∧ y ∈ l := by
  induction l with
  | nil => rcases h with ⟨x, hx, _⟩; cases hx
  | cons a t ih =>
      rcases hpa : p a
      · rcases h with ⟨x, hx, hpx⟩
        rcases List.mem_cons.mp hx with rfl | hxt
        · rw [hpx] at hpa; cases hpa
        · rcases ih ⟨x, hxt, hpx⟩ with ⟨y, hy, hpy, hyt⟩
          refine ⟨y, ?_, hpy, List.mem_cons_of_mem a hyt⟩
          rw [List.find?_cons, hpa]
          exact hy
      · refine ⟨a, ?_, hpa, List.mem_cons_self a t⟩
        rw [List.find?_cons, hpa]

theorem gfInv_cancel : ∀ a, 0 < a → a < 256 →
    gfMulPrimitive a (gfInvPrimitive a) = 1 := by
  intro a ha hlt
  unfold gfInvPrimitive
  rw [if_neg (by omega)]
  obtain ⟨hw1, hw2, hmul⟩ := invTable_spec a hlt ha
  have hmem : invTable.getD a 0 ∈ List.range' 1 255 := by
    rw [List.mem_range']
    exact ⟨invTable.getD a 0 - 1, by omega, by omega⟩
  have hex : ∃ x ∈ List.range' 1 255, (gfMulPrimitive a x == 1) = true :=
    ⟨invTable.getD a 0, hmem, by rw [hmul]; rfl⟩
  obtain ⟨y, hfind, hpy, _⟩ := find?_mem_of_exists _ _ hex
  rw [hfind]
  show gfMulPrimitive a y = 1
  exact eq_of_beq hpy

theorem gfInvPrimitive_lt (a : Nat) : gfInvPrimitive a < 256 := by
  unfold gfInvPrimitive
  split
  · norm_num
  · rcases hf : (List.range' 1 255).find? (fun i => gfMulPrimitive a i == 1) with _ | i
    · show (0 : Nat) < 256
      norm_num
    · show i < 256
      have := List.mem_range'.mp (List.mem_of_find?_eq_some hf)
      omega

theorem xor_lt_256 {a b : Nat} (ha : a < 256) (hb : b < 256) : a ^^^ b < 256 := by
  have h256 : (256 : Nat) = 2 ^ 8 := by norm_num
  rw [h256]
  exact Nat.xor_lt_two_pow (h256 ▸ ha) (h256 ▸ hb)

/-- The field GF(2^8) carried by the byte values 0..255, with the operations
of the source: addition is XOR, multiplication is `gfMulPrimitive`,
inversion is `gfInvPrimitive`, negation is the identity. -/
structure GF where
  val : Nat
  isLt : val < 256

theorem GF.ext {x y : GF} (h : x.val = y.val) : x = y := by
  cases x
  cases y
  cases h
  rfl

instance : DecidableEq GF := fun x y =>
  decidable_of_iff (x.val = y.val) ⟨GF.ext, fun h => by rw [h]⟩

instance : Zero GF := ⟨⟨0, by norm_num⟩⟩

instance : One GF := ⟨⟨1, by norm_num⟩⟩

instance : Add GF := ⟨fun x y => ⟨x.val ^^^ y.val, xor_lt_256 x.isLt y.isLt⟩⟩

instance : Mul GF := ⟨fun x y => ⟨gfMulPrimitive x.val y.val, gfMulPrimitive_lt x.isLt y.val⟩⟩

instance : Neg GF := ⟨fun x => x⟩

instance : Inv GF := ⟨fun x => ⟨gfInvPrimitive x.val, gfInvPrimitive_lt x.val⟩⟩

theorem GF.add_val (x y : GF) : (x + y).val = x.val ^^^ y.val := rfl

theorem GF.mul_val (x y : GF) : (x * y).val = gfMulPrimitive x.val y.val := rfl

theorem GF.inv_val (x : GF) : (x⁻¹).val = gfInvPrimitive x.val := rfl

theorem GF.zero_val : (0 : GF).val = 0 := rfl

theorem GF.one_val : (1 : GF).val = 1 := rfl

theorem GF.val_ne_zero {x : GF} (h : x ≠ 0) : 0 < x.val := by
  rcases Nat.eq_zero_or_pos x.val with h0 | h0
  · exact absurd (GF.ext h0) h
  · exact h0

instance : Field GF := Field.ofMinimalAxioms GF
  (fun x y z => GF.ext (Nat.xor_assoc x.val y.val z.val))
  (fun x => GF.ext (Nat.zero_xor x.val))
  (fun x => GF.ext (Nat.xor_self x.val))
  (fun x y z => GF.ext (by
    rw [GF.mul_val, GF.mul_val, GF.mul_val, GF.mul_val,
      gfMulPrimitive_eq_mulSum, gfMulPrimitive_eq_mulSum,
      gfMulPrimitive_eq_mulSum, gfMulPrimitive_eq_mulSum]
    exact mulSum_assoc x.isLt y.isLt))
  (fun x y => GF.ext (by
    rw [GF.mul_val, GF.mul_val, gfMulPrimitive_eq_mulSum, gfMulPrimitive_eq_mulSum]
    exact mulSum_comm x.isLt y.isLt))
  (fun x => GF.ext (gfMul_one_left x.val x.isLt))
  (fun x hx => GF.ext (by
    rw [GF.mul_val, GF.inv_val, GF.one_val]
    exact gfInv_cancel x.val (GF.val_ne_zero hx) x.isLt))
  (GF.ext rfl)
  (fun x y z => GF.ext (by
    rw [GF.mul_val, GF.add_val, GF.add_val, GF.mul_val, GF.mul_val,
      gfMulPrimitive_eq_mulSum, gfMulPrimitive_eq_mulSum, gfMulPrimitive_eq_mulSum]
    exact mulSum_xor_right x.val y.val z.val))
  ⟨0, 1, fun h => by cases h⟩

/-!
Bridge from the byte-level algorithms to polynomials over GF.
-/

theorem GF.neg_eq (x : GF) : -x = x := rfl

theorem GF.sub_eq (x y : GF) : x - y = x + y := by
  rw [sub_eq_add_neg, GF.neg_eq]

theorem GF.add_self (x : GF) : x + x = 0 :=
  GF.ext (Nat.xor_self x.val)

theorem GF.add_ne_zero {x y : GF} (h : x ≠ y) : x + y ≠ 0 := by
  intro hc
  apply h
  have := congrArg (fun z => z + y) hc
  simp only [zero_add] at this
  rw [add_assoc, GF.add_self, add_zero] at this
  exact this

theorem GF.val_eq_zero_iff {x : GF} : x.val = 0 ↔ x = 0 :=
  ⟨fun h => GF.ext (h.trans GF.zero_val.symm), fun h => by rw [h]; rfl⟩

/-- The polynomial with the given coefficient list (constant term first). -/
noncomputable def listToPoly : List GF → Polynomial GF
  | [] => 0
  | c :: rest => Polynomial.C c + Polynomial.X * listToPoly rest

theorem listToPoly_nil : listToPoly [] = 0 := rfl

theorem listToPoly_cons (c : GF) (rest : List GF) :
    listToPoly (c :: rest) = Polynomial.C c + Polynomial.X * listToPoly rest := rfl

theorem evalPolyAux_val (cs : List GF) : ∀ (x acc xPow : GF),
    evalPolyAux x.val (cs.map GF.val) acc.val xPow.val =
      (acc + xPow * x * Polynomial.eval x (listToPoly cs)).val := by
  induction cs with
  | nil =>
      intro x acc xPow
      show acc.val = _
      rw [listToPoly_nil, Polynomial.eval_zero, mul_zero, add_zero]
  | cons c rest ih =>
      intro x acc xPow
      show evalPolyAux x.val (rest.map GF.val)
        (gfAdd acc.val (gfMul c.val (gfMul xPow.val x.val))) (gfMul xPow.val x.val) = _
      have h1 : gfAdd acc.val (gfMul c.val (gfMul xPow.val x.val)) =
          (acc + c * (xPow * x)).val := rfl
      have h2 : gfMul xPow.val x.val = (xPow * x).val := rfl
      rw [h1, h2, ih x (acc + c * (xPow * x)) (xPow * x)]
      apply congrArg GF.val
      rw [listToPoly_cons, Polynomial.eval_add, Polynomial.eval_mul, Polynomial.eval_C,
        Polynomial.eval_X]
      ring

theorem evaluatePolynomial_val (cs : List GF) (x : GF) :
    evaluatePolynomial (cs.map GF.val) x.val = (Polynomial.eval x (listToPoly cs)).val := by
  cases cs with
  | nil =>
      show (0 : Nat) = _
      rw [listToPoly_nil, Polynomial.eval_zero]
      rfl
  | cons c rest =>
      show evalPolyAux x.val (rest.map GF.val) c.val (1 : GF).val = _
      rw [evalPolyAux_val rest x c 1]
      apply congrArg GF.val
      rw [listToPoly_cons, Polynomial.eval_add, Polynomial.eval_mul, Polynomial.eval_C,
        Polynomial.eval_X]
      ring

theorem listToPoly_degree (cs : List GF) : (listToPoly cs).degree < (cs.length : WithBot Nat) := by
  induction cs with
  | nil =>
      rw [listToPoly_nil, Polynomial.degree_zero]
      exact WithBot.bot_lt_coe 0
  | cons c rest ih =>
      rw [listToPoly_cons]
      apply lt_of_le_of_lt (Polynomial.degree_add_le _ _)
      apply max_lt
      · apply lt_of_le_of_lt Polynomial.degree_C_le
        exact_mod_cast Nat.succ_pos rest.length
      · apply lt_of_le_of_lt (Polynomial.degree_mul_le _ _)
        rw [Polynomial.degree_X, List.length_cons]
        have hlen : ((rest.length + 1 : Nat) : WithBot Nat) = 1 + (rest.length : WithBot Nat) := by
          push_cast
          ring
        rw [hlen]
        exact (WithBot.add_lt_add_iff_left WithBot.one_ne_bot).mpr ih

theorem listToPoly_eval_zero (cs : List GF) :
    Polynomial.eval 0 (listToPoly cs) = cs.headD 0 := by
  cases cs with
  | nil => rw [listToPoly_nil, Polynomial.eval_zero]; rfl
  | cons c rest =>
      rw [listToPoly_cons, Polynomial.eval_add, Polynomial.eval_mul, Polynomial.eval_C,
        Polynomial.eval_X, zero_mul, add_zero]
      rfl

/-- Every list of bytes lifts to a list of field elements. -/
theorem lift_list (l : List Nat) (h : ∀ x ∈ l, x < 256) :
    ∃ lG : List GF, lG.map GF.val = l := by
  induction l with
  | nil => exact ⟨[], rfl⟩
  | cons a t ih =>
      obtain ⟨tG, htG⟩ := ih fun x hx => h x (List.mem_cons_of_mem a hx)
      exact ⟨⟨a, h a (List.mem_cons_self a t)⟩ :: tG, by rw [List.map_cons, htG]⟩

theorem foldl_gfMul_val (fN : Nat → Nat) (fG : Nat → GF) :
    ∀ (l : List Nat), (∀ j ∈ l, fN j = (fG j).val) →
    ∀ acc : GF, l.foldl (fun a j => gfMul a (fN j)) acc.val = (acc * (l.map fG).prod).val := by
  intro l
  induction l with
  | nil =>
      intro _ acc
      show acc.val = (acc * ([] : List GF).prod).val
      rw [List.prod_nil, mul_one]
  | cons j t ih =>
      intro h acc
      show t.foldl (fun a j => gfMul a (fN j)) (gfMul acc.val (fN j)) = _
      rw [h j (List.mem_cons_self j t),
        show gfMul acc.val (fG j).val = (acc * fG j).val from rfl,
        ih (fun x hx => h x (List.mem_cons_of_mem j hx)) (acc * fG j)]
      apply congrArg GF.val
      rw [List.map_cons, List.prod_cons, mul_assoc]

theorem foldl_gfAdd_val (tN : Nat → Nat) (tG : Nat → GF) :
    ∀ (l : List Nat), (∀ j ∈ l, tN j = (tG j).val) →
    ∀ acc : GF, l.foldl (fun res i => gfAdd res (tN i)) acc.val = (acc + (l.map tG).sum).val := by
  intro l
  induction l with
  | nil =>
      intro _ acc
      show acc.val = (acc + ([] : List GF).sum).val
      rw [List.sum_nil, add_zero]
  | cons j t ih =>
      intro h acc
      show t.foldl (fun res i => gfAdd res (tN i)) (gfAdd acc.val (tN j)) = _
      rw [h j (List.mem_cons_self j t),
        show gfAdd acc.val (tG j).val = (acc + tG j).val from rfl,
        ih (fun x hx => h x (List.mem_cons_of_mem j hx)) (acc + tG j)]
      apply congrArg GF.val
      rw [List.map_cons, List.sum_cons, add_assoc]

theorem getD_map_val (pts : List GF) {j : Nat} (hj : j < pts.length) :
    (pts.map GF.val).getD j 0 = (pts.getD j 0).val := by
  rw [List.getD_eq_getElem (pts.map GF.val) 0 (by simpa using hj),
    List.getD_eq_getElem pts 0 hj, List.getElem_map]

theorem filter_range_prod (m i : Nat) (g : Nat → GF) :
    ((((List.range m).filter (fun j => j ≠ i)).map g)).prod =
      ∏ j ∈ (Finset.range m).erase i, g j := by
  rw [← Finset.filter_ne' (Finset.range m) i, Finset.prod_eq_multiset_prod]
  have hval : (Finset.filter (fun j => j ≠ i) (Finset.range m)).val =
      ((List.range m).filter (fun j => j ≠ i) : Multiset Nat) := by
    rw [Finset.filter_val, Finset.range_val, ← Multiset.coe_range, Multiset.filter_coe]
  rw [hval, Multiset.map_coe, Multiset.prod_coe]

theorem finset_sum_range_gf (m : Nat) (f : Nat → GF) :
    ((List.range m).map f).sum = ∑ i ∈ Finset.range m, f i := by
  rw [Finset.sum_eq_multiset_sum]
  have hval : (Finset.range m).val = (List.range m : Multiset Nat) := by
    rw [Finset.range_val, ← Multiset.coe_range]
  rw [hval, Multiset.map_coe, Multiset.sum_coe]

theorem eval_zero_basisDivisor (x y : GF) :
    Polynomial.eval 0 (Lagrange.basisDivisor x y) = (x + y)⁻¹ * y := by
  unfold Lagrange.basisDivisor
  rw [Polynomial.eval_mul, Polynomial.eval_C, Polynomial.eval_sub, Polynomial.eval_X,
    Polynomial.eval_C, zero_sub, GF.neg_eq, GF.sub_eq]

theorem lagrangeNumerator_val (pts : List GF) (i : Nat) :
    lagrangeNumerator (pts.map GF.val) i =
      (∏ j ∈ (Finset.range pts.length).erase i, pts.getD j 0).val := by
  unfold lagrangeNumerator
  rw [List.length_map]
  have h : ∀ j ∈ (List.range pts.length).filter (fun j => j ≠ i),
      (pts.map GF.val).getD j 0 = ((fun j => pts.getD j 0) j).val := by
    intro j hj
    have hjm : j < pts.length := List.mem_range.mp (List.mem_of_mem_filter hj)
    exact getD_map_val pts hjm
  rw [show (1 : Nat) = (1 : GF).val from rfl,
    foldl_gfMul_val _ (fun j => pts.getD j 0) _ h 1, one_mul, filter_range_prod]

theorem lagrangeDenominator_val (pts : List GF) (i : Nat) :
    lagrangeDenominator (pts.map GF.val) i =
      (∏ j ∈ (Finset.range pts.length).erase i, (pts.getD i 0 + pts.getD j 0)).val := by
  unfold lagrangeDenominator
  rw [List.length_map]
  have h : ∀ j ∈ (List.range pts.length).filter (fun j => j ≠ i),
      gfAdd ((pts.map GF.val).getD i 0) ((pts.map GF.val).getD j 0) =
        ((fun j => pts.getD i 0 + pts.getD j 0) j).val := by
    intro j hj
    have hjm : j < pts.length := List.mem_range.mp (List.mem_of_mem_filter hj)
    by_cases him : i < pts.length
    · rw [getD_map_val pts hjm, getD_map_val pts him]
      rfl
    · have hio : pts.length ≤ i := Nat.le_of_not_lt him
      have h1 : (pts.map GF.val).getD i 0 = 0 := by
        apply List.getD_eq_default
        simpa using hio
      have h2 : pts.getD i 0 = 0 := List.getD_eq_default _ _ hio
      rw [h1, h2, getD_map_val pts hjm]
      rfl
  rw [show (1 : Nat) = (1 : GF).val from rfl,
    foldl_gfMul_val _ (fun j => pts.getD i 0 + pts.getD j 0) _ h 1, one_mul,
    filter_range_prod]

theorem eval_zero_basis (m : Nat) (v : Nat → GF) (i : Nat) :
    Polynomial.eval 0 (Lagrange.basis (Finset.range m) v i) =
      (∏ j ∈ (Finset.range m).erase i, v j) *
        (∏ j ∈ (Finset.range m).erase i, (v i + v j))⁻¹ := by
  rw [show Lagrange.basis (Finset.range m) v i =
      ∏ j ∈ (Finset.range m).erase i, Lagrange.basisDivisor (v i) (v j) from rfl]
  rw [Polynomial.eval_prod,
    Finset.prod_congr rfl (fun j _ => eval_zero_basisDivisor (v i) (v j)),
    Finset.prod_mul_distrib, Finset.prod_inv_distrib]
  ring

/-- The interpolation loop of the source recovers the constant term of the
polynomial whenever it is fed evaluations at pairwise distinct nonzero points,
at least as many as there are coefficients. -/
theorem lagrange_gf (cs pts : List GF)
    (hnd : pts.Nodup)
    (hlen : cs.length ≤ pts.length) :
    lagrangeInterpolation (pts.map GF.val)
      (pts.map fun x => (Polynomial.eval x (listToPoly cs)).val) = (cs.headD 0).val := by
  classical
  have hvs : Set.InjOn (fun i => pts.getD i 0) (Finset.range pts.length) := by
    intro i hi j hj hij
    simp only [Finset.coe_range, Set.mem_Iio] at hi hj
    simp only at hij
    rw [List.getD_eq_getElem pts 0 hi, List.getD_eq_getElem pts 0 hj] at hij
    exact (List.Nodup.getElem_inj_iff hnd).mp hij
  have hden : ∀ i ∈ Finset.range pts.length,
      (∏ j ∈ (Finset.range pts.length).erase i,
        (pts.getD i 0 + pts.getD j 0)) ≠ 0 := by
    intro i hi
    rw [Finset.prod_ne_zero_iff]
    intro j hj
    have hji : j ≠ i := (Finset.mem_erase.mp hj).1
    have hjm : j ∈ Finset.range pts.length := (Finset.mem_erase.mp hj).2
    apply GF.add_ne_zero
    intro hc
    exact hji (hvs (Finset.mem_coe.mpr hi) (Finset.mem_coe.mpr hjm) hc).symm
  have key : ∀ i ∈ List.range pts.length,
      (fun i => if lagrangeDenominator (pts.map GF.val) i ≠ 0 then
          gfMul ((pts.map fun x => (Polynomial.eval x (listToPoly cs)).val).getD i 0)
            (gfMul (lagrangeNumerator (pts.map GF.val) i)
              (gfInv (lagrangeDenominator (pts.map GF.val) i)))
        else 0) i =
      ((fun i => Polynomial.eval (pts.getD i 0) (listToPoly cs) *
        Polynomial.eval 0 (Lagrange.basis (Finset.range pts.length)
          (fun j => pts.getD j 0) i)) i).val := by
    intro i hi
    have him : i < pts.length := List.mem_range.mp hi
    have hiF : i ∈ Finset.range pts.length := Finset.mem_range.mpr him
    have hd := lagrangeDenominator_val pts i
    have hdnz : lagrangeDenominator (pts.map GF.val) i ≠ 0 := by
      rw [hd]
      intro hc
      exact hden i hiF (GF.val_eq_zero_iff.mp hc)
    show (if lagrangeDenominator (pts.map GF.val) i ≠ 0 then _ else 0) = _
    rw [if_pos hdnz]
    have hys : (pts.map fun x => (Polynomial.eval x (listToPoly cs)).val).getD i 0 =
        (Polynomial.eval (pts.getD i 0) (listToPoly cs)).val := by
      rw [List.getD_eq_getElem _ 0 (by simpa using him), List.getElem_map,
        List.getD_eq_getElem pts 0 him]
    rw [hys, lagrangeNumerator_val, hd]
    show ((Polynomial.eval (pts.getD i 0) (listToPoly cs)) *
      ((∏ j ∈ (Finset.range pts.length).erase i, pts.getD j 0) *
        (∏ j ∈ (Finset.range pts.length).erase i, (pts.getD i 0 + pts.getD j 0))⁻¹)).val = _
    apply congrArg GF.val
    congr 1
    exact (eval_zero_basis pts.length (fun j => pts.getD j 0) i).symm
  show (List.range (pts.map GF.val).length).foldl (fun result i =>
      if lagrangeDenominator (pts.map GF.val) i ≠ 0 then
        gfAdd result (gfMul ((pts.map fun x => (Polynomial.eval x (listToPoly cs)).val).getD i 0)
          (gfMul (lagrangeNumerator (pts.map GF.val) i)
            (gfInv (lagrangeDenominator (pts.map GF.val) i))))
      else result) 0 = (cs.headD 0).val
  rw [List.length_map]
  have hbody : (fun (result : Nat) i =>
      if lagrangeDenominator (pts.map GF.val) i ≠ 0 then
        gfAdd result (gfMul ((pts.map fun x => (Polynomial.eval x (listToPoly cs)).val).getD i 0)
          (gfMul (lagrangeNumerator (pts.map GF.val) i)
            (gfInv (lagrangeDenominator (pts.map GF.val) i))))
      else result) =
      fun (result : Nat) i => gfAdd result
        (if lagrangeDenominator (pts.map GF.val) i ≠ 0 then
          gfMul ((pts.map fun x => (Polynomial.eval x (listToPoly cs)).val).getD i 0)
            (gfMul (lagrangeNumerator (pts.map GF.val) i)
              (gfInv (lagrangeDenominator (pts.map GF.val) i)))
        else 0) := by
    funext result i
    by_cases hc : lagrangeDenominator (pts.map GF.val) i ≠ 0
    · rw [if_pos hc, if_pos hc]
    · rw [if_neg hc, if_neg hc]
      show result = gfAdd result 0
      rw [gfAdd, Nat.xor_zero]
  rw [hbody]
  refine Eq.trans (foldl_gfAdd_val _ _ (List.range pts.length) key (0 : GF)) ?_
  rw [zero_add, finset_sum_range_gf]
  have hinterp : Polynomial.eval 0 (Lagrange.interpolate (Finset.range pts.length)
      (fun j => pts.getD j 0)
      (fun i => Polynomial.eval (pts.getD i 0) (listToPoly cs))) =
      ∑ i ∈ Finset.range pts.length,
        Polynomial.eval (pts.getD i 0) (listToPoly cs) *
          Polynomial.eval 0 (Lagrange.basis (Finset.range pts.length)
            (fun j => pts.getD j 0) i) := by
    rw [Lagrange.interpolate_apply, Polynomial.eval_finset_sum]
    apply Finset.sum_congr rfl
    intro i _
    rw [Polynomial.eval_mul, Polynomial.eval_C]
  rw [← hinterp]
  have hdeg : (listToPoly cs).degree < ((Finset.range pts.length).card : WithBot Nat) := by
    rw [Finset.card_range]
    exact lt_of_lt_of_le (listToPoly_degree cs) (by exact_mod_cast hlen)
  have hPeq := Lagrange.eq_interpolate (f := listToPoly cs) hvs hdeg
  rw [← hPeq, listToPoly_eval_zero]

/-- Byte-level version of the interpolation recovery lemma. -/
theorem lagrange_nat (csN ptsN : List Nat)
    (hcs : ∀ c ∈ csN, c < 256) (hpts : ∀ x ∈ ptsN, x < 256)
    (hnd : ptsN.Nodup) (hlen : csN.length ≤ ptsN.length) :
    lagrangeInterpolation ptsN (ptsN.map fun x => evaluatePolynomial csN x) =
      csN.headD 0 := by
  obtain ⟨cs, rfl⟩ := lift_list csN hcs
  obtain ⟨pts, rfl⟩ := lift_list ptsN hpts
  have hnd' : pts.Nodup := List.Nodup.of_map GF.val hnd
  have hmap : (pts.map GF.val).map (fun x => evaluatePolynomial (cs.map GF.val) x) =
      pts.map (fun x => (Polynomial.eval x (listToPoly cs)).val) := by
    rw [List.map_map]
    apply List.map_congr_left
    intro x _
    exact evaluatePolynomial_val cs x
  rw [hmap, lagrange_gf cs pts hnd' (by simpa using hlen)]
  cases cs with
  | nil => rfl
  | cons c t => rfl

/-!
Structure of `Split`: closed form of the share list.
-/

/-- The coefficient vector built by `Split` for byte position `p`. -/
def splitCoeffs (secret : List Nat) (k : Int) (rnd : Nat → Nat → Nat) (p : Nat) : List Nat :=
  secret.getD p 0 :: (List.range (k.toNat - 1)).map fun j => rnd p (j + 1)

theorem foldl_set_length (g : Nat → Share → Share) :
    ∀ (idxs : List Nat) (l : List Share),
    (idxs.foldl (fun shares i => shares.set i (g i (shares.getD i { id := 0, value := [] }))) l).length =
      l.length := by
  intro idxs
  induction idxs with
  | nil => intro l; rfl
  | cons i t ih =>
      intro l
      show (t.foldl _ (l.set i _)).length = _
      rw [ih (l.set i _), List.length_set]

theorem foldl_set_getD (g : Nat → Share → Share) :
    ∀ (N : Nat) (l : List Share) (j : Nat), j < l.length →
    (((List.range N).foldl
        (fun shares i => shares.set i (g i (shares.getD i { id := 0, value := [] }))) l).getD j
      { id := 0, value := [] }) =
      if j < N then g j (l.getD j { id := 0, value := [] })
      else l.getD j { id := 0, value := [] } := by
  intro N
  induction N with
  | zero =>
      intro l j hj
      rw [if_neg (Nat.not_lt_zero j)]
      rfl
  | succ N ih =>
      intro l j hj
      rw [List.range_succ, List.foldl_append]
      show ((((List.range N).foldl _ l).set N _).getD j _) = _
      have hprevlen : ((List.range N).foldl
          (fun shares i => shares.set i (g i (shares.getD i { id := 0, value := [] }))) l).length =
          l.length := foldl_set_length g (List.range N) l
      by_cases hjN : j = N
      · subst hjN
        rw [List.getD_eq_getElem _ _ (by rw [List.length_set, hprevlen]; exact hj)]
        rw [List.getElem_set]
        rw [if_pos rfl, if_pos (Nat.lt_succ_self j)]
        rw [ih l j hj, if_neg (Nat.lt_irrefl j)]
      · rw [List.getD_eq_getElem _ _ (by rw [List.length_set, hprevlen]; exact hj)]
        rw [List.getElem_set, if_neg (fun h => hjN h.symm)]
        rw [← List.getD_eq_getElem _ ({ id := 0, value := [] }) (by rw [hprevlen]; exact hj)]
        rw [ih l j hj]
        rcases Nat.lt_or_ge j N with hlt | hge
        · rw [if_pos hlt, if_pos (Nat.lt_succ_of_lt hlt)]
        · have : ¬ j < N := Nat.not_lt.mpr hge
          rw [if_neg this, if_neg (by omega)]

/-- The update applied by `Split` to the share of index `i` while processing
byte position `byteIndex`. -/
def splitStep (secret : List Nat) (k : Int) (rnd : Nat → Nat → Nat)
    (byteIndex i : Nat) (s : Share) : Share :=
  let cur := if byteIndex = 0 then
      { id := i + 1, value := List.replicate secret.length 0 }
    else s
  { cur with value := (cur.value.set byteIndex
      (evaluatePolynomial (splitCoeffs secret k rnd byteIndex) (i + 1))) }

/-- The share list produced by `Split` when the parameters pass validation. -/
def SplitShares (secret : List Nat) (n k : Int) (rnd : Nat → Nat → Nat) : List Share :=
  if secret.length = 0 then List.replicate n.toNat { id := 0, value := [] }
  else (List.range n.toNat).map fun i =>
    { id := i + 1,
      value := (List.range secret.length).map fun p =>
        evaluatePolynomial (splitCoeffs secret k rnd p) (i + 1) }

theorem list_ext_getD {l1 l2 : List Share} (hlen : l1.length = l2.length)
    (h : ∀ j < l1.length, l1.getD j { id := 0, value := [] } = l2.getD j { id := 0, value := [] }) :
    l1 = l2 := by
  apply List.ext_getElem hlen
  intro i h1 h2
  have := h i h1
  rw [List.getD_eq_getElem _ _ h1, List.getD_eq_getElem _ _ h2] at this
  exact this

theorem list_ext_getD_nat {l1 l2 : List Nat} (hlen : l1.length = l2.length)
    (h : ∀ j < l1.length, l1.getD j 0 = l2.getD j 0) :
    l1 = l2 := by
  apply List.ext_getElem hlen
  intro i h1 h2
  have := h i h1
  rw [List.getD_eq_getElem _ _ h1, List.getD_eq_getElem _ _ h2] at this
  exact this

theorem split_outer_length (secret : List Nat) (k : Int) (rnd : Nat → Nat → Nat) (N : Nat) :
    ∀ t, (((List.range t).foldl (fun shares byteIndex =>
        (List.range N).foldl (fun shares i =>
          shares.set i (splitStep secret k rnd byteIndex i
            (shares.getD i { id := 0, value := [] }))) shares)
      (List.replicate N { id := 0, value := [] })).length) = N := by
  intro t
  induction t with
  | zero => exact List.length_replicate N _
  | succ t ih =>
      rw [List.range_succ, List.foldl_append]
      simp only [List.foldl_cons, List.foldl_nil]
      rw [foldl_set_length, ih]

theorem split_outer_spec (secret : List Nat) (k : Int) (rnd : Nat → Nat → Nat) (N : Nat) :
    ∀ t, t ≤ secret.length → ∀ j, j < N →
    (((List.range t).foldl (fun shares byteIndex =>
        (List.range N).foldl (fun shares i =>
          shares.set i (splitStep secret k rnd byteIndex i
            (shares.getD i { id := 0, value := [] }))) shares)
      (List.replicate N { id := 0, value := [] })).getD j { id := 0, value := [] }) =
      if t = 0 then { id := 0, value := [] } else
        { id := j + 1,
          value := (List.range secret.length).map fun p =>
            if p < t then evaluatePolynomial (splitCoeffs secret k rnd p) (j + 1) else 0 } := by
  intro t
  induction t with
  | zero =>
      intro _ j hj
      rw [if_pos rfl]
      simp only [List.range_zero, List.foldl_nil]
      rw [List.getD_eq_getElem _ _ (by simpa using hj), List.getElem_replicate]
  | succ t ih =>
      intro ht j hj
      have htL : t < secret.length := ht
      rw [List.range_succ, List.foldl_append]
      simp only [List.foldl_cons, List.foldl_nil]
      rw [foldl_set_getD (splitStep secret k rnd t) N _ j
        (by rw [split_outer_length]; exact hj), if_pos hj,
        ih (Nat.le_of_lt htL) j hj]
      rw [if_neg (Nat.succ_ne_zero t)]
      by_cases ht0 : t = 0
      · subst ht0
        rw [if_pos rfl]
        show ({ id := j + 1, value := ((List.replicate secret.length 0).set 0
          (evaluatePolynomial (splitCoeffs secret k rnd 0) (j + 1))) } : Share) = _
        have hval : (List.replicate secret.length 0).set 0
            (evaluatePolynomial (splitCoeffs secret k rnd 0) (j + 1)) =
            (List.range secret.length).map fun p =>
              if p < 1 then evaluatePolynomial (splitCoeffs secret k rnd p) (j + 1) else 0 := by
          apply list_ext_getD_nat
          · rw [List.length_set, List.length_replicate, List.length_map, List.length_range]
          · intro p hp
            have hpL : p < secret.length := by
              rw [List.length_set, List.length_replicate] at hp
              exact hp
            rw [List.getD_eq_getElem _ _ hp, List.getElem_set,
              List.getD_eq_getElem _ _ (by rw [List.length_map, List.length_range]; exact hpL),
              List.getElem_map, List.getElem_range]
            by_cases hp0 : p = 0
            · subst hp0
              rw [if_pos rfl, if_pos (by norm_num)]
            · rw [if_neg (fun h => hp0 h.symm), if_neg (by omega), List.getElem_replicate]
        rw [hval]
      · rw [if_neg ht0]
        simp only [splitStep]
        rw [if_neg ht0]
        show ({ id := j + 1, value := (((List.range secret.length).map fun p =>
            if p < t then evaluatePolynomial (splitCoeffs secret k rnd p) (j + 1) else 0).set t
              (evaluatePolynomial (splitCoeffs secret k rnd t) (j + 1))) } : Share) = _
        have hval : ((List.range secret.length).map fun p =>
            if p < t then evaluatePolynomial (splitCoeffs secret k rnd p) (j + 1) else 0).set t
              (evaluatePolynomial (splitCoeffs secret k rnd t) (j + 1)) =
            (List.range secret.length).map fun p =>
              if p < t + 1 then evaluatePolynomial (splitCoeffs secret k rnd p) (j + 1) else 0 := by
          apply list_ext_getD_nat
          · rw [List.length_set, List.length_map, List.length_map]
          · intro p hp
            have hpL : p < secret.length := by
              rw [List.length_set, List.length_map, List.length_range] at hp
              exact hp
            rw [List.getD_eq_getElem _ _ hp, List.getElem_set,
              List.getD_eq_getElem _ _ (by rw [List.length_map, List.length_range]; exact hpL)]
            simp only [List.getElem_map, List.getElem_range]
            by_cases hpt : t = p
            · subst hpt
              rw [if_pos rfl, if_pos (Nat.lt_succ_self t)]
            · rw [if_neg hpt]
              rcases Nat.lt_or_ge p t with hlt | hge
              · rw [if_pos hlt, if_pos (Nat.lt_succ_of_lt hlt)]
              · rw [if_neg (Nat.not_lt.mpr hge), if_neg (by omega)]
        rw [hval]

theorem Split_ok (secret : List Nat) (n k : Int) (rnd : Nat → Nat → Nat)
    (h2 : 2 ≤ k) (hkn : k ≤ n) (hn : n ≤ 255) :
    Split secret n k rnd = Except.ok (SplitShares secret n k rnd) := by
  unfold Split
  rw [if_neg (by omega), if_neg (by omega), if_neg (by omega)]
  congr 1
  show (List.range secret.length).foldl (fun shares byteIndex =>
      (List.range n.toNat).foldl (fun shares i =>
        shares.set i (splitStep secret k rnd byteIndex i
          (shares.getD i { id := 0, value := [] }))) shares)
    (List.replicate n.toNat { id := 0, value := [] }) = SplitShares secret n k rnd
  have hlenL : ((List.range secret.length).foldl (fun shares byteIndex =>
      (List.range n.toNat).foldl (fun shares i =>
        shares.set i (splitStep secret k rnd byteIndex i
          (shares.getD i { id := 0, value := [] }))) shares)
    (List.replicate n.toNat { id := 0, value := [] })).length = n.toNat :=
    split_outer_length secret k rnd n.toNat secret.length
  have hlenR : (SplitShares secret n k rnd).length = n.toNat := by
    unfold SplitShares
    split
    · rw [List.length_replicate]
    · rw [List.length_map, List.length_range]
  apply list_ext_getD
  · rw [hlenL, hlenR]
  · intro j hj
    rw [hlenL] at hj
    rw [split_outer_spec secret k rnd n.toNat secret.length le_rfl j hj]
    unfold SplitShares
    by_cases hL : secret.length = 0
    · rw [if_pos hL, if_pos hL]
      rw [List.getD_eq_getElem _ _ (by simpa using hj), List.getElem_replicate]
    · rw [if_neg hL, if_neg hL]
      rw [List.getD_eq_getElem _ _ (by rw [List.length_map, List.length_range]; exact hj),
        List.getElem_map, List.getElem_range]
      have hmap : ((List.range secret.length).map fun p =>
          if p < secret.length then evaluatePolynomial (splitCoeffs secret k rnd p) (j + 1) else 0) =
          (List.range secret.length).map fun p =>
            evaluatePolynomial (splitCoeffs secret k rnd p) (j + 1) := by
        apply List.map_congr_left
        intro p hp
        rw [if_pos (List.mem_range.mp hp)]
      rw [hmap]

theorem SplitShares_length (secret : List Nat) (n k : Int) (rnd : Nat → Nat → Nat) :
    (SplitShares secret n k rnd).length = n.toNat := by
  unfold SplitShares
  split
  · rw [List.length_replicate]
  · rw [List.length_map, List.length_range]

theorem SplitShares_getD_empty (n k : Int) (rnd : Nat → Nat → Nat) {i : Nat}
    (hi : i < n.toNat) :
    (SplitShares [] n k rnd).getD i { id := 0, value := [] } = { id := 0, value := [] } := by
  unfold SplitShares
  rw [if_pos (show ([] : List Nat).length = 0 from rfl),
    List.getD_eq_getElem _ _ (by simpa using hi), List.getElem_replicate]

theorem SplitShares_getD (secret : List Nat) (n k : Int) (rnd : Nat → Nat → Nat)
    (hL : secret ≠ []) {i : Nat} (hi : i < n.toNat) :
    (SplitShares secret n k rnd).getD i { id := 0, value := [] } =
      { id := i + 1,
        value := (List.range secret.length).map fun p =>
          evaluatePolynomial (splitCoeffs secret k rnd p) (i + 1) } := by
  unfold SplitShares
  rw [if_neg (by simpa [List.length_eq_zero] using hL),
    List.getD_eq_getElem _ _ (by rw [List.length_map, List.length_range]; exact hi),
    List.getElem_map, List.getElem_range]

theorem Combine_ok (shares : List Share) (h2 : 2 ≤ shares.length)
    (heq : ∀ s ∈ shares,
      s.value.length = (shares.headD { id := 0, value := [] }).value.length) :
    Combine shares = Except.ok
      ((List.range (shares.headD { id := 0, value := [] }).value.length).map
        fun byteIndex => lagrangeInterpolation (shares.map Share.id)
          (shares.map fun s => s.value.getD byteIndex 0)) := by
  unfold Combine
  rw [if_neg (by omega)]
  show (if ((shares.drop 1).any fun s =>
      s.value.length ≠ (shares.headD { id := 0, value := [] }).value.length) then
      (Except.error "все части должны иметь одинаковую длину" : Except String (List Nat))
    else Except.ok ((List.range (shares.headD { id := 0, value := [] }).value.length).map
      fun byteIndex => lagrangeInterpolation (shares.map Share.id)
        (shares.map fun s => s.value.getD byteIndex 0))) = _
  have hany : ((shares.drop 1).any fun s =>
      s.value.length ≠ (shares.headD { id := 0, value := [] }).value.length) = false := by
    rw [List.any_eq_false]
    intro s hs
    simp [heq s (List.mem_of_mem_drop hs)]
  rw [if_neg (by rw [hany]; exact Bool.false_ne_true)]

theorem split_combine_byte (secret : List Nat) (k : Int) (rnd : Nat → Nat → Nat)
    (idxs : List Nat) (p : Nat) (hp : p < secret.length)
    (hsec : ∀ b ∈ secret, b < 256) (hrnd : ∀ a b, rnd a b < 256)
    (hk2 : 2 ≤ k.toNat) (hkidx : k.toNat ≤ idxs.length)
    (hnd : idxs.Nodup) (hlt : ∀ i ∈ idxs, i < 255) :
    lagrangeInterpolation (idxs.map fun i => i + 1)
      (idxs.map fun i => evaluatePolynomial (splitCoeffs secret k rnd p) (i + 1)) =
      secret.getD p 0 := by
  have h1 : (idxs.map fun i => evaluatePolynomial (splitCoeffs secret k rnd p) (i + 1)) =
      (idxs.map fun i => i + 1).map fun x =>
        evaluatePolynomial (splitCoeffs secret k rnd p) x := by
    rw [List.map_map]
    rfl
  have hcs : ∀ c ∈ splitCoeffs secret k rnd p, c < 256 := by
    intro c hc
    rcases List.mem_cons.mp hc with rfl | hc
    · have : secret.getD p 0 ∈ secret := by
        rw [List.getD_eq_getElem _ _ hp]
        exact List.getElem_mem hp
      exact hsec _ this
    · rcases List.mem_map.mp hc with ⟨j, _, rfl⟩
      exact hrnd p (j + 1)
  have hpts : ∀ x ∈ idxs.map (fun i => i + 1), x < 256 := by
    intro x hx
    rcases List.mem_map.mp hx with ⟨i, hi, rfl⟩
    have := hlt i hi
    omega
  have hnd' : (idxs.map fun i => i + 1).Nodup :=
    List.Nodup.map (fun a b h => by omega) hnd
  have hlen : (splitCoeffs secret k rnd p).length ≤ (idxs.map fun i => i + 1).length := by
    unfold splitCoeffs
    rw [List.length_cons, List.length_map, List.length_range, List.length_map]
    omega
  rw [h1, lagrange_nat (splitCoeffs secret k rnd p) (idxs.map fun i => i + 1)
    hcs hpts hnd' hlen]
  rfl

/-- Main round-trip helper: combining any selection of pairwise distinct
shares out of a `Split` result — at least the threshold many — yields the
original secret. -/
theorem split_combine (secret : List Nat) (n k : Int) (rnd : Nat → Nat → Nat)
    (idxs : List Nat)
    (hsec : ∀ b ∈ secret, b < 256) (hrnd : ∀ a b, rnd a b < 256)
    (h2 : 2 ≤ k) (hkn : k ≤ n) (hn : n ≤ 255)
    (hnd : idxs.Nodup) (hlt : ∀ i ∈ idxs, i < n.toNat) (hm : k.toNat ≤ idxs.length) :
    Combine (idxs.map fun i =>
      (SplitShares secret n k rnd).getD i { id := 0, value := [] }) =
      Except.ok secret := by
  have hk2 : 2 ≤ k.toNat := by omega
  have hidxlen : 2 ≤ idxs.length := le_trans hk2 hm
  have hlt255 : ∀ i ∈ idxs, i < 255 := by
    intro i hi
    have h1 := hlt i hi
    have hn' : n.toNat ≤ 255 := by omega
    omega
  by_cases hsecnil : secret = []
  · subst hsecnil
    have hsub : (idxs.map fun i =>
        (SplitShares [] n k rnd).getD i { id := 0, value := [] }) =
        idxs.map fun _ => ({ id := 0, value := [] } : Share) := by
      apply List.map_congr_left
      intro i hi
      exact SplitShares_getD_empty n k rnd (hlt i hi)
    rw [hsub]
    have hhead : ((idxs.map fun _ => ({ id := 0, value := [] } : Share)).headD
        { id := 0, value := [] }).value.length = 0 := by
      cases idxs with
      | nil => rfl
      | cons a t => rfl
    have heq : ∀ s ∈ idxs.map fun _ => ({ id := 0, value := [] } : Share),
        s.value.length = ((idxs.map fun _ => ({ id := 0, value := [] } : Share)).headD
          { id := 0, value := [] }).value.length := by
      intro s hs
      rcases List.mem_map.mp hs with ⟨i, _, rfl⟩
      rw [hhead]
      rfl
    rw [Combine_ok _ (by simpa using hidxlen) heq, hhead]
    rfl
  · have hsub : (idxs.map fun i =>
        (SplitShares secret n k rnd).getD i { id := 0, value := [] }) =
        idxs.map fun i => ({ id := i + 1, value := ((List.range secret.length).map fun p => evaluatePolynomial (splitCoeffs secret k rnd p) (i + 1)) } : Share) := by
      apply List.map_congr_left
      intro i hi
      exact SplitShares_getD secret n k rnd hsecnil (hlt i hi)
    rw [hsub]
    obtain ⟨i0, rest, rfl⟩ : ∃ i0 rest, idxs = i0 :: rest := by
      cases idxs with
      | nil => simp at hidxlen
      | cons a t => exact ⟨a, t, rfl⟩
    have hhead : (((i0 :: rest).map fun i => ({ id := i + 1, value := ((List.range secret.length).map fun p => evaluatePolynomial (splitCoeffs secret k rnd p) (i + 1)) } : Share)).headD
        { id := 0, value := [] }).value.length = secret.length := by
      show ((List.range secret.length).map fun p =>
        evaluatePolynomial (splitCoeffs secret k rnd p) (i0 + 1)).length = secret.length
      rw [List.length_map, List.length_range]
    have heq : ∀ s ∈ (i0 :: rest).map fun i => ({ id := i + 1, value := ((List.range secret.length).map fun p => evaluatePolynomial (splitCoeffs secret k rnd p) (i + 1)) } : Share),
        s.value.length = (((i0 :: rest).map fun i => ({ id := i + 1, value := ((List.range secret.length).map fun p => evaluatePolynomial (splitCoeffs secret k rnd p) (i + 1)) } : Share)).headD
          { id := 0, value := [] }).value.length := by
      intro s hs
      rcases List.mem_map.mp hs with ⟨i, _, rfl⟩
      rw [hhead]
      show ((List.range secret.length).map fun p =>
        evaluatePolynomial (splitCoeffs secret k rnd p) (i + 1)).length = secret.length
      rw [List.length_map, List.length_range]
    rw [Combine_ok _ (by simpa using hidxlen) heq, hhead]
    congr 1
    apply list_ext_getD_nat
    · rw [List.length_map, List.length_range]
    · intro p hp
      have hpL : p < secret.length := by
        rw [List.length_map, List.length_range] at hp
        exact hp
      rw [List.getD_eq_getElem _ _ hp, List.getElem_map, List.getElem_range]
      have hxs : ((i0 :: rest).map fun i => ({ id := i + 1, value := ((List.range secret.length).map fun q => evaluatePolynomial (splitCoeffs secret k rnd q) (i + 1)) } : Share)).map Share.id =
          (i0 :: rest).map fun i => i + 1 := by
        rw [List.map_map]
        rfl
      have hys : ((i0 :: rest).map fun i => ({ id := i + 1, value := ((List.range secret.length).map fun q => evaluatePolynomial (splitCoeffs secret k rnd q) (i + 1)) } : Share)).map
            (fun s => s.value.getD p 0) =
          (i0 :: rest).map fun i =>
            evaluatePolynomial (splitCoeffs secret k rnd p) (i + 1) := by
        rw [List.map_map]
        apply List.map_congr_left
        intro i _
        show ((List.range secret.length).map fun q =>
          evaluatePolynomial (splitCoeffs secret k rnd q) (i + 1)).getD p 0 = _
        rw [List.getD_eq_getElem _ _
          (by rw [List.length_map, List.length_range]; exact hpL),
          List.getElem_map, List.getElem_range]
      rw [hxs, hys]
      exact split_combine_byte secret k rnd (i0 :: rest) p hpL hsec hrnd hk2 hm hnd hlt255

/-!
Codec: round trip and failure structure of `ShareToString` / `StringToShare`.
-/

theorem hexDigitChar_spec : ∀ d < 16, isHexDigitChar (hexDigitChar d) = true ∧
    hexCharVal (hexDigitChar d) = d ∧ (hexDigitChar d).isWhitespace = false := by
  decide

theorem repr_digits_spec : ∀ n < 256, ((Nat.repr n).toList.all Char.isDigit) = true ∧
    ((Nat.repr n).toList.isEmpty) = false ∧
    ((Nat.repr n).toList.foldl (fun acc c => acc * 10 + (c.toNat - 48)) 0) = n := by
  decide

theorem takeWhile_all (p : Char → Bool) :
    ∀ l : List Char, (∀ x ∈ l, p x = true) → l.takeWhile p = l := by
  intro l
  induction l with
  | nil => intro _; rfl
  | cons a t ih =>
      intro h
      rw [List.takeWhile_cons, h a (List.mem_cons_self a t), ih
        fun x hx => h x (List.mem_cons_of_mem a hx)]
      rfl

theorem takeWhile_append_cons (p : Char → Bool) (y : Char) (l2 : List Char)
    (hy : p y = false) :
    ∀ l1 : List Char, (∀ x ∈ l1, p x = true) →
      (l1 ++ y :: l2).takeWhile p = l1 := by
  intro l1
  induction l1 with
  | nil =>
      intro _
      rw [List.nil_append, List.takeWhile_cons, hy]
      rfl
  | cons a t ih =>
      intro h
      rw [List.cons_append, List.takeWhile_cons, h a (List.mem_cons_self a t),
        ih fun x hx => h x (List.mem_cons_of_mem a hx)]
      rfl

theorem byteToHex_mem_spec {b : Nat} (hb : b < 256) :
    ∀ c ∈ byteToHex b, isHexDigitChar c = true ∧ c.isWhitespace = false := by
  intro c hc
  have h1 : b / 16 < 16 := by omega
  have h2 : b % 16 < 16 := by omega
  rcases List.mem_cons.mp hc with rfl | hc
  · exact ⟨(hexDigitChar_spec _ h1).1, (hexDigitChar_spec _ h1).2.2⟩
  · rcases List.mem_cons.mp hc with rfl | hc
    · exact ⟨(hexDigitChar_spec _ h2).1, (hexDigitChar_spec _ h2).2.2⟩
    · cases hc

theorem parseHexPairs_encode :
    ∀ (value : List Nat), (∀ b ∈ value, b < 256) →
      parseHexPairs ((value.map byteToHex).flatten) =
        DecodeOutcome.ok { id := 0, value := value } := by
  intro value
  induction value with
  | nil => intro _; rfl
  | cons b t ih =>
      intro h
      have hb : b < 256 := h b (List.mem_cons_self b t)
      have h1 : b / 16 < 16 := by omega
      have h2 : b % 16 < 16 := by omega
      show parseHexPairs (hexDigitChar (b / 16) :: hexDigitChar (b % 16) ::
        (t.map byteToHex).flatten) = _
      rw [parseHexPairs]
      rw [if_pos (hexDigitChar_spec _ h1).1, (hexDigitChar_spec _ h1).2.1,
        if_pos (hexDigitChar_spec _ h2).1, (hexDigitChar_spec _ h2).2.1]
      rw [ih fun x hx => h x (List.mem_cons_of_mem b hx)]
      show DecodeOutcome.ok { id := 0, value := (b / 16 * 16 + b % 16) :: t } = _
      have hbb : b / 16 * 16 + b % 16 = b := by omega
      rw [hbb]

theorem ShareToString_toList (share : Share) :
    (ShareToString share).toList =
      (Nat.repr share.id).toList ++ ':' :: (share.value.map byteToHex).flatten := rfl

theorem flatten_hex_spec {value : List Nat} (hval : ∀ b ∈ value, b < 256) :
    ∀ c ∈ (value.map byteToHex).flatten, isHexDigitChar c = true ∧ c.isWhitespace = false := by
  intro c hc
  rcases List.mem_flatten.mp hc with ⟨l, hl, hcl⟩
  rcases List.mem_map.mp hl with ⟨b, hb, rfl⟩
  exact byteToHex_mem_spec (hval b hb) c hcl

theorem scanShareFormat_encode (id : Nat) (value : List Nat) (hid : id < 256)
    (hvne : value ≠ []) (hval : ∀ b ∈ value, b < 256) :
    scanShareFormat ((Nat.repr id).toList ++ ':' :: (value.map byteToHex).flatten) =
      some (id, (value.map byteToHex).flatten) := by
  obtain ⟨hdig, hne, hfold⟩ := repr_digits_spec id hid
  have hdigall : ∀ x ∈ (Nat.repr id).toList, Char.isDigit x = true :=
    fun x hx => List.all_eq_true.mp hdig x hx
  have htake : ((Nat.repr id).toList ++ ':' :: (value.map byteToHex).flatten).takeWhile
      Char.isDigit = (Nat.repr id).toList :=
    takeWhile_append_cons Char.isDigit ':' _ (by decide) _ hdigall
  simp only [scanShareFormat]
  rw [htake, hfold]
  rw [if_neg (show ¬((Nat.repr id).toList.isEmpty = true) from by rw [hne]; exact Bool.false_ne_true)]
  rw [if_neg (by omega)]
  rw [List.drop_left]
  show (let hexStr := ((value.map byteToHex).flatten).takeWhile fun c => !c.isWhitespace
    if hexStr.isEmpty then none else some (id, hexStr)) = _
  have htake2 : ((value.map byteToHex).flatten).takeWhile (fun c => !c.isWhitespace) =
      (value.map byteToHex).flatten := by
    apply takeWhile_all
    intro x hx
    rw [Bool.not_eq_true']
    exact (flatten_hex_spec hval x hx).2
  rw [htake2]
  have hnonempty : ((value.map byteToHex).flatten).isEmpty = false := by
    cases value with
    | nil => exact absurd rfl hvne
    | cons b t => rfl
  rw [if_neg (by rw [hnonempty]; exact Bool.false_ne_true)]

/-- Round trip of the codec for shares with a nonempty value. -/
theorem codec_roundtrip (share : Share) (hid1 : 1 ≤ share.id) (hid2 : share.id ≤ 255)
    (hvne : share.value ≠ []) (hval : ∀ b ∈ share.value, b < 256) :
    StringToShare (ShareToString share) = DecodeOutcome.ok share := by
  obtain ⟨id, value⟩ := share
  dsimp only at hid1 hid2 hvne hval
  unfold StringToShare
  rw [ShareToString_toList]
  show (match scanShareFormat ((Nat.repr id).toList ++ ':' ::
      (value.map byteToHex).flatten) with
    | none => DecodeOutcome.error "неверный формат части"
    | some (idVal, hexStr) =>
        match parseHexPairs hexStr with
        | DecodeOutcome.ok sh => DecodeOutcome.ok { id := idVal, value := sh.value }
        | r => r) = DecodeOutcome.ok { id := id, value := value }
  rw [scanShareFormat_encode id value (by omega) hvne hval]
  show (match parseHexPairs ((value.map byteToHex).flatten) with
    | DecodeOutcome.ok sh => DecodeOutcome.ok { id := id, value := sh.value }
    | r => r) = DecodeOutcome.ok { id := id, value := value }
  rw [parseHexPairs_encode value hval]

/-!
Error structure of `Split` and `Combine`.
-/

theorem Combine_err_insufficient {shares : List Share} (h : shares.length < 2) :
    Combine shares = Except.error "необходимо минимум 2 части" := by
  unfold Combine
  rw [if_pos h]

theorem Combine_err_mismatch {shares : List Share} (h2 : ¬ shares.length < 2)
    (hex : ((shares.drop 1).any fun s =>
      s.value.length ≠ (shares.headD { id := 0, value := [] }).value.length) = true) :
    Combine shares = Except.error "все части должны иметь одинаковую длину" := by
  unfold Combine
  rw [if_neg h2]
  show (if ((shares.drop 1).any fun s =>
      s.value.length ≠ (shares.headD { id := 0, value := [] }).value.length) then
      (Except.error "все части должны иметь одинаковую длину" : Except String (List Nat))
    else Except.ok _) = _
  rw [if_pos hex]

theorem Combine_error_cases (shares : List Share) :
    (Combine shares = Except.error "необходимо минимум 2 части" ↔ shares.length < 2) ∧
    (Combine shares = Except.error "все части должны иметь одинаковую длину" ↔
      (2 ≤ shares.length ∧ ∃ s ∈ shares.drop 1,
        s.value.length ≠ (shares.headD { id := 0, value := [] }).value.length)) ∧
    (∀ e, Combine shares = Except.error e →
      e = "необходимо минимум 2 части" ∨ e = "все части должны иметь одинаковую длину") := by
  have hmsg : ("необходимо минимум 2 части" : String) ≠
      "все части должны иметь одинаковую длину" := by decide
  by_cases hlen : shares.length < 2
  · rw [Combine_err_insufficient hlen]
    refine ⟨⟨fun _ => hlen, fun _ => rfl⟩,
      ⟨fun h => absurd (Except.error.inj h) hmsg, fun h => absurd h.1 (by omega)⟩,
      fun e he => Or.inl (Except.error.inj he).symm⟩
  · rcases hany : ((shares.drop 1).any fun s =>
        s.value.length ≠ (shares.headD { id := 0, value := [] }).value.length) with _ | _
    · have heq : ∀ s ∈ shares,
          s.value.length = (shares.headD { id := 0, value := [] }).value.length := by
        obtain ⟨s0, rest, rfl⟩ : ∃ s0 rest, shares = s0 :: rest := by
          cases shares with
          | nil => simp at hlen
          | cons a t => exact ⟨a, t, rfl⟩
        intro s hs
        rcases List.mem_cons.mp hs with rfl | hsr
        · rfl
        · have := List.any_eq_false.mp hany s (by simpa using hsr)
          simpa using this
      rw [Combine_ok shares (by omega) heq]
      refine ⟨⟨fun h => (nomatch h), fun h => absurd h hlen⟩, ⟨fun h => (nomatch h), ?_⟩,
        fun e he => (nomatch he)⟩
      intro h
      rcases h.2 with ⟨s, hs, hsne⟩
      have hp : (decide (s.value.length ≠
          (shares.headD { id := 0, value := [] }).value.length)) = true := by
        simpa using hsne
      have hthis : ((shares.drop 1).any fun s =>
          s.value.length ≠ (shares.headD { id := 0, value := [] }).value.length) = true :=
        List.any_eq_true.mpr ⟨s, hs, hp⟩
      rw [hany] at hthis
      cases hthis
    · rw [Combine_err_mismatch hlen hany]
      have hwit : ∃ s ∈ shares.drop 1,
          s.value.length ≠ (shares.headD { id := 0, value := [] }).value.length := by
        rcases List.any_eq_true.mp hany with ⟨s, hs, hp⟩
        exact ⟨s, hs, by simpa using hp⟩
      exact ⟨⟨fun h => absurd (Except.error.inj h).symm hmsg, fun h => absurd h hlen⟩,
        ⟨fun _ => ⟨by omega, hwit⟩, fun _ => rfl⟩,
        fun e he => Or.inr (Except.error.inj he).symm⟩

theorem Split_error_iff (secret : List Nat) (n k : Int) (rnd : Nat → Nat → Nat) :
    (∃ e, Split secret n k rnd = Except.error e) ↔ (k < 2 ∨ n < k ∨ n > 255) := by
  constructor
  · rintro ⟨e, he⟩
    by_contra hcon
    push_neg at hcon
    rw [Split_ok secret n k rnd (by omega) (by omega) (by omega)] at he
    cases he
  · intro h
    by_cases h1 : k < 2
    · exact ⟨_, by unfold Split; rw [if_pos h1]⟩
    · by_cases h2 : n < k
      · exact ⟨_, by unfold Split; rw [if_neg h1, if_pos h2]⟩
      · have h3 : n > 255 := by
          rcases h with h | h | h
          · exact absurd h h1
          · exact absurd h h2
          · exact h
        exact ⟨_, by unfold Split; rw [if_neg h1, if_neg h2, if_pos h3]⟩

/-!
The claims.
-/

/-- C1: for every secret, n, k with 2 ≤ k ≤ n ≤ 255, and every m with
k ≤ m ≤ n, applying `Combine` to any m-element subset of the shares returned
by `Split(secret, n, k)` (a selection of pairwise distinct share indices, in
any order, at least k of them) returns exactly the original secret, for every
possible draw of the random coefficients. -/
theorem claim_C1_split_combine_roundtrip (secret : List Nat) (n k : Int)
    (rnd : Nat → Nat → Nat) (shares : List Share) (idxs : List Nat)
    (hsec : ∀ b ∈ secret, b < 256) (hrnd : ∀ a b, rnd a b < 256)
    (h2 : 2 ≤ k) (hkn : k ≤ n) (hn : n ≤ 255)
    (hsplit : Split secret n k rnd = Except.ok shares)
    (hnd : idxs.Nodup) (hlt : ∀ i ∈ idxs, i < n.toNat) (hm : k.toNat ≤ idxs.length) :
    Combine (idxs.map fun i => shares.getD i { id := 0, value := [] }) =
      Except.ok secret := by
  rw [Split_ok secret n k rnd h2 hkn hn] at hsplit
  have hsh : shares = SplitShares secret n k rnd := (Except.ok.inj hsplit).symm
  rw [hsh]
  exact split_combine secret n k rnd idxs hsec hrnd h2 hkn hn hnd hlt hm

/-- Witness for C1: splitting the secret `[65, 66]` into 5 shares with
threshold 3 under the all-zeroes coefficient draw, then combining the shares
of ids 1, 3, 5, returns the secret. -/
theorem claim_C1_witness :
    Combine ([0, 2, 4].map fun i =>
      ([{ id := 1, value := [65, 66] }, { id := 2, value := [65, 66] },
        { id := 3, value := [65, 66] }, { id := 4, value := [65, 66] },
        { id := 5, value := [65, 66] }] : List Share).getD i { id := 0, value := [] }) =
      Except.ok [65, 66] :=
  claim_C1_split_combine_roundtrip [65, 66] 5 3 (fun _ _ => 0)
    [{ id := 1, value := [65, 66] }, { id := 2, value := [65, 66] },
      { id := 3, value := [65, 66] }, { id := 4, value := [65, 66] },
      { id := 5, value := [65, 66] }] [0, 2, 4]
    (by decide) (fun _ _ => by show (0 : Nat) < 256; decide) (by decide) (by decide)
    (by decide) (by rfl) (by decide) (by decide) (by decide)

/-- C2 counterexample: for the secret `[65, 66]` (with the all-zeroes
coefficient draw) `Split` returns shares whose values have length 2 =
len(secret), not len(secret)+1 = 3: no checksum byte exists. -/
theorem claim_C2_counterexample :
    Split [65, 66] 5 3 (fun _ _ => 0) = Except.ok
      [{ id := 1, value := [65, 66] }, { id := 2, value := [65, 66] },
        { id := 3, value := [65, 66] }, { id := 4, value := [65, 66] },
        { id := 5, value := [65, 66] }] ∧
    ¬ (∀ s ∈ ([{ id := 1, value := [65, 66] }, { id := 2, value := [65, 66] },
        { id := 3, value := [65, 66] }, { id := 4, value := [65, 66] },
        { id := 5, value := [65, 66] }] : List Share),
      s.value.length = ([65, 66] : List Nat).length + 1) := by
  constructor
  · rfl
  · decide

/-- C2 (amended): for valid parameters and a nonempty secret, `Split` returns
exactly n shares, the i-th having id i (1-based), and every share's value has
length len(secret) — the secret bytes only, with no checksum byte appended. -/
theorem claim_C2_amended_share_shape (secret : List Nat) (n k : Int)
    (rnd : Nat → Nat → Nat) (h2 : 2 ≤ k) (hkn : k ≤ n) (hn : n ≤ 255)
    (hne : secret ≠ []) :
    ∃ shares, Split secret n k rnd = Except.ok shares ∧
      shares.length = n.toNat ∧
      ∀ i < n.toNat, (shares.getD i { id := 0, value := [] }).id = i + 1 ∧
        (shares.getD i { id := 0, value := [] }).value.length = secret.length := by
  refine ⟨SplitShares secret n k rnd, Split_ok secret n k rnd h2 hkn hn,
    SplitShares_length secret n k rnd, ?_⟩
  intro i hi
  rw [SplitShares_getD secret n k rnd hne hi]
  exact ⟨rfl, by rw [List.length_map, List.length_range]⟩

/-- Witness for the amended C2 at secret `[65, 66]`, n = 5, k = 3. -/
theorem claim_C2_witness :
    ∃ shares, Split [65, 66] 5 3 (fun _ _ => 0) = Except.ok shares ∧
      shares.length = (5 : Int).toNat ∧
      ∀ i < (5 : Int).toNat, (shares.getD i { id := 0, value := [] }).id = i + 1 ∧
        (shares.getD i { id := 0, value := [] }).value.length =
          ([65, 66] : List Nat).length :=
  claim_C2_amended_share_shape [65, 66] 5 3 (fun _ _ => 0)
    (by decide) (by decide) (by decide) (by decide)

/-- C3 counterexample: `Combine` performs no checksum verification.  Splitting
`[65]` with n = k = 2 under the all-zeroes draw yields shares `1:[65]`,
`2:[65]`; flipping one byte of the first share and combining succeeds
(no ChecksumFailed — no error at all) and returns the wrong secret `[182]`. -/
theorem claim_C3_counterexample :
    Split [65] 2 2 (fun _ _ => 0) = Except.ok
      [{ id := 1, value := [65] }, { id := 2, value := [65] }] ∧
    Combine [{ id := 1, value := [64] }, { id := 2, value := [65] }] =
      Except.ok [182] ∧ (182 : Nat) ≠ 65 := by
  refine ⟨by rfl, by rfl, by decide⟩

/-- C3 (amended): `Combine` has no checksum gate: for every share list with
at least 2 shares of equal value lengths it succeeds, so corrupted share
bytes are never detected. -/
theorem claim_C3_amended_no_checksum (shares : List Share)
    (h2 : 2 ≤ shares.length)
    (heq : ∀ s ∈ shares,
      s.value.length = (shares.headD { id := 0, value := [] }).value.length) :
    ∃ v, Combine shares = Except.ok v :=
  ⟨_, Combine_ok shares h2 heq⟩

/-- Witness for the amended C3 at the corrupted pair of shares. -/
theorem claim_C3_witness :
    ∃ v, Combine [{ id := 1, value := [64] }, { id := 2, value := [65] }] =
      Except.ok v :=
  claim_C3_amended_no_checksum
    [{ id := 1, value := [64] }, { id := 2, value := [65] }]
    (by decide) (by decide)

/-- C4: `Split` returns an error exactly when k < 2, or n < k, or n > 255 —
for any secret and any randomness, so the checks precede all other work —
and otherwise returns the share list without error. -/
theorem claim_C4_split_parameter_errors (secret : List Nat) (n k : Int)
    (rnd : Nat → Nat → Nat) :
    ((∃ e, Split secret n k rnd = Except.error e) ↔ (k < 2 ∨ n < k ∨ n > 255)) ∧
    (¬(k < 2 ∨ n < k ∨ n > 255) →
      Split secret n k rnd = Except.ok (SplitShares secret n k rnd)) := by
  refine ⟨Split_error_iff secret n k rnd, fun h => ?_⟩
  push_neg at h
  exact Split_ok secret n k rnd (by omega) (by omega) (by omega)

/-- C5: `Combine` returns the insufficient-shares error exactly when given
fewer than 2 shares, the length-mismatch error exactly when some later
share's value length differs from the first share's, these are the only
errors, and no secret is ever returned alongside an error. -/
theorem claim_C5_combine_errors (shares : List Share) :
    (Combine shares = Except.error "необходимо минимум 2 части" ↔
      shares.length < 2) ∧
    (Combine shares = Except.error "все части должны иметь одинаковую длину" ↔
      (2 ≤ shares.length ∧ ∃ s ∈ shares.drop 1,
        s.value.length ≠ (shares.headD { id := 0, value := [] }).value.length)) ∧
    (∀ e, Combine shares = Except.error e →
      e = "необходимо минимум 2 части" ∨
        e = "все части должны иметь одинаковую длину") ∧
    (∀ e v, Combine shares = Except.error e → Combine shares ≠ Except.ok v) := by
  obtain ⟨a, b, c⟩ := Combine_error_cases shares
  refine ⟨a, b, c, fun e v he hv => ?_⟩
  rw [he] at hv
  cases hv

/-- C6 counterexample: the codec round trip fails for the empty value.
Encoding the share `{id 5, value []}` gives `"5:"`, whose hex portion is the
empty `%s` token, so decoding returns an error instead of the share. -/
theorem claim_C6_counterexample :
    ShareToString { id := 5, value := [] } = "5:" ∧
    StringToShare (ShareToString { id := 5, value := [] }) =
      DecodeOutcome.error "неверный формат части" := by
  refine ⟨by rfl, by rfl⟩

/-- C6 (amended): `decode(encode(s)) = s` for every share with id in 1..255
and a value of length at least 1 (the claim fails only for the empty value,
where decoding reports a format error). -/
theorem claim_C6_amended_roundtrip (share : Share) (hid1 : 1 ≤ share.id)
    (hid2 : share.id ≤ 255) (hvne : share.value ≠ [])
    (hval : ∀ b ∈ share.value, b < 256) :
    StringToShare (ShareToString share) = DecodeOutcome.ok share :=
  codec_roundtrip share hid1 hid2 hvne hval

/-- Witness for the amended C6 at the share `{id 1, value [18, 52, 171, 205]}`. -/
theorem claim_C6_witness :
    StringToShare (ShareToString { id := 1, value := [18, 52, 171, 205] }) =
      DecodeOutcome.ok { id := 1, value := [18, 52, 171, 205] } :=
  claim_C6_amended_roundtrip { id := 1, value := [18, 52, 171, 205] }
    (by decide) (by decide) (by decide) (by decide)

/-- C7: the decoder does not return an error on every malformed input: on the
odd-length hex input `"1:abc"` the loop slices `hexValue[2:4]` past the end of
the 3-character string and panics (a runtime fault, which the repository's own
`TestStringConversionErrors` expects to be a returned error instead), and the
id 0 — outside 1..255 — is accepted without any error. -/
theorem claim_C7_odd_hex_fault :
    StringToShare "1:abc" = DecodeOutcome.fault ∧
    StringToShare "0:ab" = DecodeOutcome.ok { id := 0, value := [171] } := by
  refine ⟨by rfl, by rfl⟩

/-- C8 counterexample: `Combine` raises no duplicate-id error: on two shares
that both carry id 1 it silently skips the zero-denominator Lagrange terms and
returns a successful reconstruction (the zero byte), not an error. -/
theorem claim_C8_counterexample :
    Combine [{ id := 1, value := [5] }, { id := 1, value := [7] }] =
      Except.ok [0] ∧
    ¬ ∃ e, Combine [{ id := 1, value := [5] }, { id := 1, value := [7] }] =
      Except.error e := by
  constructor
  · rfl
  · rintro ⟨e, he⟩
    rw [show Combine [({ id := 1, value := [5] } : Share), { id := 1, value := [7] }] =
      Except.ok [0] from rfl] at he
    cases he

/-- The interpolation fold leaves its accumulator unchanged over any index
list whose Lagrange denominators are all zero: every term is skipped by the
`if denominator != 0` guard of the source. -/
theorem lagrange_foldl_skip (xs ys : List Nat) :
    ∀ (l : List Nat) (r : Nat), (∀ i ∈ l, lagrangeDenominator xs i = 0) →
      List.foldl (fun result i =>
        let numerator := lagrangeNumerator xs i
        let denominator := lagrangeDenominator xs i
        if denominator ≠ 0 then
          gfAdd result (gfMul (ys.getD i 0) (gfMul numerator (gfInv denominator)))
        else result) r l = r
  | [], _, _ => rfl
  | a :: t, r, h => by
      have ha : ¬ lagrangeDenominator xs a ≠ 0 :=
        fun hc => hc (h a (List.mem_cons_self a t))
      have hstep : (if lagrangeDenominator xs a ≠ 0 then
          gfAdd r (gfMul (ys.getD a 0)
            (gfMul (lagrangeNumerator xs a) (gfInv (lagrangeDenominator xs a))))
        else r) = r := if_neg ha
      rw [List.foldl_cons]
      exact (lagrange_foldl_skip xs ys t _
        (fun i hi => h i (List.mem_cons_of_mem a hi))).trans hstep

/-- Interpolating through two sample points with the same x-coordinate yields
0 whatever the sample values are: both denominators are `x XOR x = 0`, so
both terms are silently skipped. -/
theorem lagrangeInterpolation_dup (x : Nat) (ys : List Nat) :
    lagrangeInterpolation [x, x] ys = 0 := by
  refine lagrange_foldl_skip [x, x] ys (List.range ([x, x] : List Nat).length) 0 ?_
  intro i hi
  have h2 : i < 2 := List.mem_range.mp hi
  rcases i with _ | i
  · show gfMul 1 (x ^^^ x) = 0
    rw [Nat.xor_self]
    rfl
  · rcases i with _ | i
    · show gfMul 1 (x ^^^ x) = 0
      rw [Nat.xor_self]
      rfl
    · omega

/-- Mapping a constantly-zero function over `List.range n` gives n zero
bytes. -/
theorem range_map_zero (n : Nat) (f : Nat → Nat) (hf : ∀ b, f b = 0) :
    (List.range n).map f = List.replicate n 0 := by
  induction n with
  | zero => rfl
  | succ n ih =>
      rw [List.range_succ, List.map_append, ih, List.map_cons, List.map_nil, hf,
        List.replicate_succ']

/-- C8 (amended): `Combine` performs no duplicate-id detection before
interpolation; whenever two shares carry the same id — any id, with values of
any equal length — every Lagrange denominator is zero, each term is silently
skipped, and the call succeeds, returning the zero byte at every position
regardless of the id and of the share values. -/
theorem claim_C8_amended_silent_skip (x : Nat) (v1 v2 : List Nat)
    (hlen : v2.length = v1.length) :
    Combine [{ id := x, value := v1 }, { id := x, value := v2 }] =
      Except.ok (List.replicate v1.length 0) := by
  have heq : ∀ s ∈ ([{ id := x, value := v1 }, { id := x, value := v2 }] : List Share),
      s.value.length = (([{ id := x, value := v1 },
        { id := x, value := v2 }] : List Share).headD { id := 0, value := [] }).value.length := by
    intro s hs
    rcases List.mem_cons.mp hs with rfl | hs
    · rfl
    · rcases List.mem_cons.mp hs with rfl | hs
      · exact hlen
      · cases hs
  rw [Combine_ok _ (by simp) heq]
  have h1 : (([{ id := x, value := v1 }, { id := x, value := v2 }] : List Share).headD
      { id := 0, value := [] }).value.length = v1.length := rfl
  rw [h1]
  refine congrArg Except.ok ?_
  exact range_map_zero v1.length _ (fun b => lagrangeInterpolation_dup x _)

/-- Witness for the amended C8 at id 2 and the value pair `[9, 4]`,
`[11, 250]`: Combine succeeds and returns two zero bytes. -/
theorem claim_C8_witness :
    Combine [{ id := 2, value := [9, 4] }, { id := 2, value := [11, 250] }] =
      Except.ok (List.replicate ([9, 4] : List Nat).length 0) :=
  claim_C8_amended_silent_skip 2 [9, 4] [11, 250] (by decide)

/-- C9: for every field element a in 1..255, `gfMul a (gfInv a) = 1` for the
GF(256) multiplication and brute-force inverse of the source. -/
theorem claim_C9_mul_inv (a : Nat) (h1 : 0 < a) (h2 : a < 256) :
    gfMul a (gfInv a) = 1 :=
  gfInv_cancel a h1 h2

/-- Witness for C9 at a = 3. -/
theorem claim_C9_witness : gfMul 3 (gfInv 3) = 1 :=
  claim_C9_mul_inv 3 (by decide) (by decide)

/-- C10: for the empty secret and valid parameters, `Split` returns n shares
that are all the zero-value share (id 0, empty value, no checksum byte), and
`Combine` on any 2 or more of these shares succeeds with the empty secret. -/
theorem claim_C10_empty_secret (n k : Int) (rnd : Nat → Nat → Nat) (m : Nat)
    (h2 : 2 ≤ k) (hkn : k ≤ n) (hn : n ≤ 255) (hm2 : 2 ≤ m) (hmn : m ≤ n.toNat) :
    Split [] n k rnd = Except.ok (List.replicate n.toNat { id := 0, value := [] }) ∧
    Combine (List.replicate m { id := 0, value := [] }) = Except.ok [] := by
  constructor
  · rw [Split_ok [] n k rnd h2 hkn hn]
    rfl
  · have hhead : ((List.replicate m ({ id := 0, value := [] } : Share)).headD
        { id := 0, value := [] }).value.length = 0 := by
      cases m with
      | zero => rfl
      | succ m => rfl
    have heq : ∀ s ∈ List.replicate m ({ id := 0, value := [] } : Share),
        s.value.length = ((List.replicate m ({ id := 0, value := [] } : Share)).headD
          { id := 0, value := [] }).value.length := by
      intro s hs
      rw [List.eq_of_mem_replicate hs, hhead]
      rfl
    rw [Combine_ok _ (by rw [List.length_replicate]; omega) heq, hhead]
    rfl

/-- Witness for C10 at n = 3, k = 2, m = 2. -/
theorem claim_C10_witness :
    Split [] 3 2 (fun _ _ => 0) =
      Except.ok (List.replicate (3 : Int).toNat { id := 0, value := [] }) ∧
    Combine (List.replicate 2 { id := 0, value := [] }) = Except.ok [] :=
  claim_C10_empty_secret 3 2 (fun _ _ => 0) 2
    (by decide) (by decide) (by decide) (by decide) (by decide)
